import Mathlib

/-!
Verification of the SpendLite ingestion / classification core (`script.js`).

The JavaScript source is embedded shallowly: strings are Lean `String`s
(processed as their underlying `List Char`), JS numbers carrying currency
amounts are modelled as `Rat` (the code only compares and negates them, so
exact rationals are a faithful model of the decimal values involved), and
JS `null` is `Option.none`.  Character-level operations (`toLowerCase`,
`toUpperCase`, `trim`, the regexes) are modelled for the ASCII fragment the
rule language and the bank formats use.
-/

namespace SpendLite

/-- ASCII whitespace as matched by JS `trim()` / `\s` (ASCII fragment). -/
def isJsSpace (c : Char) : Bool :=
  c = ' ' || c = '\t' || c = '\n' || c = '\r' || c = '\x0b' || c = '\x0c'

/-- ASCII digit test (`[0-9]`, `\d`). -/
def isDigitC (c : Char) : Bool := decide ('0' ≤ c) && decide (c ≤ '9')

/-- ASCII uppercase letter test (`[A-Z]`). -/
def isUpperC (c : Char) : Bool := decide ('A' ≤ c) && decide (c ≤ 'Z')

/-- ASCII lowercase letter test (`[a-z]`). -/
def isLowerC (c : Char) : Bool := decide ('a' ≤ c) && decide (c ≤ 'z')

/-- ASCII letter test (`[A-Za-z]`). -/
def isLetterC (c : Char) : Bool := isUpperC c || isLowerC c

/-- The 26 lowercase/uppercase ASCII letter pairs. -/
def casePairs : List (Char × Char) :=
  [('a','A'),('b','B'),('c','C'),('d','D'),('e','E'),('f','F'),('g','G'),
   ('h','H'),('i','I'),('j','J'),('k','K'),('l','L'),('m','M'),('n','N'),
   ('o','O'),('p','P'),('q','Q'),('r','R'),('s','S'),('t','T'),('u','U'),
   ('v','V'),('w','W'),('x','X'),('y','Y'),('z','Z')]

/-- JS `toUpperCase` on one character (ASCII model). -/
def ucChar (c : Char) : Char :=
  ((casePairs.find? (fun p => p.1 == c)).map (·.2)).getD c

/-- JS `toLowerCase` on one character (ASCII model). -/
def lcChar (c : Char) : Char :=
  ((casePairs.find? (fun p => p.2 == c)).map (·.1)).getD c

/-- `toUpperCase` on a character list. -/
def ucL (cs : List Char) : List Char := cs.map ucChar

/-- `toLowerCase` on a character list. -/
def lcL (cs : List Char) : List Char := cs.map lcChar

/-- JS `String.prototype.toUpperCase` (ASCII model). -/
def ucStr (s : String) : String := ⟨ucL s.data⟩

/-- JS `String.prototype.toLowerCase` (ASCII model). -/
def lcStr (s : String) : String := ⟨lcL s.data⟩

/-- Characters kept by `parseAmount`'s first `replace`: the class `[\d\-,.]`. -/
def isAmountChar (c : Char) : Bool := isDigitC c || c = '-' || c = ',' || c = '.'

/-- Numeric value of a digit run (most significant first). -/
def digitsVal (cs : List Char) : Nat :=
  cs.foldl (fun acc c => acc * 10 + (c.toNat - '0'.toNat)) 0

/-- JS `Number(s)` on a string made only of digits, `-` and `.` (which is all
that survives `parseAmount`'s stripping).  The result is an exact decimal,
represented as (numerator, number of decimal places); `none` models `NaN`.
JS converts the empty string to `0`; a lone sign or dot, a repeated sign or
dot, or any other leftover shape is `NaN`. -/
def jsNumber (cs : List Char) : Option (Int × Nat) :=
  if cs = [] then some (0, 0)
  else
    let (neg, cs1) := match cs with
      | '-' :: t => (true, t)
      | _ => (false, cs)
    let ip := cs1.takeWhile isDigitC
    let r1 := cs1.dropWhile isDigitC
    let render : Int → Nat → Option (Int × Nat) := fun n k =>
      some (if neg then -n else n, k)
    match r1 with
    | [] => if ip = [] then none else render (digitsVal ip) 0
    | '.' :: fr =>
      let fp := fr.takeWhile isDigitC
      let r2 := fr.dropWhile isDigitC
      if r2 = [] ∧ (ip ≠ [] ∨ fp ≠ []) then
        render (digitsVal ip * 10 ^ fp.length + digitsVal fp) fp.length
      else none
    | _ => none

/-- The rational value of a `jsNumber` result, with `NaN` collapsed to `0`
(that is the effect of the `|| 0` in `parseAmount`; note JS `-0` is also
falsy, and our exact representation makes `-0` equal to `0` already). -/
def ratOfDec : Option (Int × Nat) → Rat
  | none => 0
  | some (n, k) => (n : Rat) / (10 : Rat) ^ k

/-- `parseAmount` from `script.js`:
`if (s == null) return 0;`
`s = String(s).replace(/[^\d\-,.]/g, '').replace(/,/g, '');`
`return Number(s) || 0;` -/
def parseAmount (s : Option String) : Rat :=
  match s with
  | none => 0
  | some str =>
    let stripped := (str.data.filter isAmountChar).filter (fun c => c ≠ ',')
    ratOfDec (jsNumber stripped)

/-- Drop leading JS whitespace. -/
def trimLeftC (cs : List Char) : List Char := cs.dropWhile isJsSpace

/-- Drop trailing JS whitespace. -/
def trimRightC (cs : List Char) : List Char := (cs.reverse.dropWhile isJsSpace).reverse

/-- JS `String.prototype.trim` on a character list. -/
def trimC (cs : List Char) : List Char := trimRightC (trimLeftC cs)

/-- JS `String.prototype.trim` (ASCII model). -/
def jsTrim (s : String) : String := ⟨trimC s.data⟩

/-- Split on `/\r?\n/`: a newline separates lines and consumes one carriage
return immediately before it; any other character is part of its line. -/
def splitNlAux : List Char → List Char → List (List Char)
  | [], acc => [acc.reverse]
  | '\n' :: rest, acc => acc.reverse :: splitNlAux rest []
  | '\r' :: '\n' :: rest, acc => acc.reverse :: splitNlAux rest []
  | '\r' :: rest, acc => splitNlAux rest ('\r' :: acc)
  | c :: rest, acc => splitNlAux rest (c :: acc)

/-- JS `s.split(/\r?\n/)` on a character list. -/
def splitNl (cs : List Char) : List (List Char) := splitNlAux cs []

/-- JS `lines.join('\n')` on character lists. -/
def joinNl : List (List Char) → List Char
  | [] => []
  | [l] => l
  | l :: ls => l ++ '\n' :: joinNl ls

/-- Split on the literal two-character separator `=>` (JS `split(/=>/i)`;
the `i` flag is inert on a pattern without letters). -/
def splitArrow (cs : List Char) : List (List Char) :=
  match cs with
  | [] => [[]]
  | '=' :: '>' :: rest => [] :: splitArrow rest
  | c :: rest =>
    match splitArrow rest with
    | [] => [[c]]
    | p :: ps => (c :: p) :: ps

/-- JS `parts.join('=>')`. -/
def joinArrow : List (List Char) → List Char
  | [] => []
  | [p] => p
  | p :: ps => p ++ '=' :: '>' :: joinArrow ps

/-- `true` iff the list has no occurrence of the `=>` separator. -/
def arrowFree : List Char → Bool
  | [] => true
  | [_] => true
  | a :: b :: rest => !(a = '=' && b = '>') && arrowFree (b :: rest)

/-- JS `s.split(/\s+/).filter(Boolean)`: maximal runs of non-whitespace. -/
def wsSplitAux (cs : List Char) (acc : List Char) : List (List Char) :=
  match cs with
  | [] => if acc = [] then [] else [acc.reverse]
  | c :: rest =>
    if isJsSpace c then
      if acc = [] then wsSplitAux rest [] else acc.reverse :: wsSplitAux rest []
    else wsSplitAux rest (c :: acc)

/-- The whitespace-separated tokens of a keyword. -/
def wsSplit (cs : List Char) : List (List Char) := wsSplitAux cs []

/-!  ## The match engine (`matchesKeyword`)

The token boundary class in `script.js` is `[^A-Za-z0-9&._]`: anything that
is not an ASCII letter, digit, ampersand, dot or underscore.  -/

/-- One character of the regex class `[^A-Za-z0-9&._]`. -/
def isDelim (c : Char) : Bool :=
  !(isLetterC c || isDigitC c || c = '&' || c = '.' || c = '_')

/-- Does the text start with a boundary character (or end here)?  Models the
trailing `(?:${delim}|$)` of the token regexes. -/
def boundaryHead : List Char → Bool
  | [] => true
  | c :: _ => isDelim c

/-- `m1At tok cs`: the single-token regex `tok(?:${delim}|$)` matches at the
start of `cs`. -/
def m1At (tok : List Char) (cs : List Char) : Bool :=
  tok.isPrefixOf cs && boundaryHead (cs.drop tok.length)

/-- All suffixes of `cs` reachable by consuming one or more leading boundary
characters (models `(?:${delim})+`). -/
def afterDelims : List Char → List (List Char)
  | [] => []
  | c :: rest => if isDelim c then rest :: afterDelims rest else []

/-- `m3At t0 t1 t2 cs`: the three-token regex body
`t0(?:${delim})+t1(?:${delim})+t2(?:${delim}|$)` matches at the start of
`cs`. -/
def m3At (t0 t1 t2 : List Char) (cs : List Char) : Bool :=
  t0.isPrefixOf cs &&
  ((afterDelims (cs.drop t0.length)).any fun r1 =>
    t1.isPrefixOf r1 &&
    ((afterDelims (r1.drop t1.length)).any fun r2 =>
      t2.isPrefixOf r2 && boundaryHead (r2.drop t2.length)))

/-- Search for a match of `p` at a position preceded by a boundary character
(every position except the very start; models the `${delim}` alternative of
the leading `(?:^|${delim})`). -/
def scanAfter (p : List Char → Bool) : List Char → Bool
  | [] => false
  | c :: rest => (isDelim c && p rest) || scanAfter p rest

/-- Search for a match of `p` at the start of the text or after a boundary
character (models the leading `(?:^|${delim})` plus the regex engine's
scan over starting positions). -/
def scanPos (p : List Char → Bool) (cs : List Char) : Bool :=
  p cs || scanAfter p cs

/-- Core of `matchesKeyword` once text and keyword are lowercased: split the
keyword on whitespace; with no tokens nothing matches; with exactly three
tokens use the anchored in-order regex; otherwise each token independently
must occur boundary-delimited. -/
def matchCore (text : List Char) (kw : List Char) : Bool :=
  match wsSplit kw with
  | [] => false
  | [t0, t1, t2] => scanPos (m3At t0 t1 t2) text
  | tokens => tokens.all fun tok => scanPos (m1At tok) text

/-- `matchesKeyword` from `script.js` (the regex-escaping of tokens is the
identity at this level of modelling: tokens are matched literally). -/
def matchesKeyword (descLower : String) (keywordLower : String) : Bool :=
  if keywordLower = "" then false
  else matchCore (lcL descLower.data) (lcL keywordLower.data)

/-!  ## The rule store: `parseRules` and the canonicalization in `sortRulesBox` -/

/-- A parsed classification rule. -/
structure Rule where
  keyword : String
  category : String
deriving DecidableEq, Repr

/-- `parseRules` from `script.js`: skip blank and `#` lines; split the
trimmed line on the separator; keyword is part 0 (trimmed, lowercased),
category is part 1 (trimmed, uppercased) — the parts after a second
separator are ignored here.  Rules with an empty keyword or category are
dropped. -/
def parseRuleLine (line : List Char) : Option Rule :=
  let trimmed := trimC line
  if trimmed = [] || trimmed.head? = some '#' then none
  else
    match splitArrow trimmed with
    | p0 :: p1 :: _ =>
      let keyword := lcL (trimC p0)
      let category := ucL (trimC p1)
      if keyword ≠ [] ∧ category ≠ [] then some ⟨⟨keyword⟩, ⟨category⟩⟩ else none
    | _ => none

def parseRules (text : String) : List Rule :=
  (splitNl text.data).filterMap parseRuleLine

/-- The sort key used by `sortRulesBox`:
`line.split(/=>/)[0].trim().toLowerCase()`. -/
def ruleKey (line : List Char) : List Char := lcL (trimC ((splitArrow line).headD []))

/-- Code-point lexicographic comparison of character lists; models the
`localeCompare(…, { sensitivity: 'base' })` total preorder on the already
lowercased sort keys (for the ASCII rule texts considered here). -/
def charsLe : List Char → List Char → Bool
  | [], _ => true
  | _ :: _, [] => false
  | a :: as, b :: bs =>
    if a.toNat < b.toNat then true
    else if b.toNat < a.toNat then false
    else charsLe as bs

/-- The comparator passed to `ruleLines.sort` in `sortRulesBox`. -/
def ruleLineLe (a b : List Char) : Prop := charsLe (ruleKey a) (ruleKey b) = true

instance : DecidableRel ruleLineLe := fun a b => by
  unfold ruleLineLe; infer_instance

/-- Line classification in `sortRulesBox`: blank lines, `#` lines and lines
without the separator are kept verbatim in the comments block. -/
def isCommentLine (l : List Char) : Bool :=
  trimC l = [] || (trimC l).head? = some '#' || (splitArrow l).length < 2

/-- The normalized rule line `sortRulesBox` emits for an input line, if any:
`KEYWORD => CATEGORY`, keyword and category uppercased, the category
re-joined on the separator (`parts.slice(1).join('=>')`).  Blank/`#` lines,
separator-free lines, and lines whose keyword or category part trims to
empty yield `none`. -/
def ruleOfLine (l : List Char) : Option (List Char) :=
  let t := trimC l
  if t = [] || t.head? = some '#' then none
  else
    match splitArrow l with
    | p0 :: p1 :: ps =>
      let keyword := trimC p0
      let category := trimC (joinArrow (p1 :: ps))
      if keyword ≠ [] ∧ category ≠ [] then
        some (ucL keyword ++ ' ' :: '=' :: '>' :: ' ' :: ucL category)
      else none
    | _ => none

/-- The line-level core of `sortRulesBox`: comments (in original order),
one blank separator line when both blocks are non-empty, then the rule
lines normalized and sorted by keyword. -/
def canonLines (ls : List (List Char)) : List (List Char) :=
  let comments := ls.filter isCommentLine
  let sorted := List.insertionSort ruleLineLe (ls.filterMap ruleOfLine)
  comments ++ (if comments ≠ [] ∧ sorted ≠ [] then [[]] else []) ++ sorted

/-- The text transformation performed by `sortRulesBox` on the rules box
content (the DOM/localStorage traffic around it is outside the model):
split into lines, partition and normalize, reassemble with `join('\n')`. -/
def canonicalize (s : String) : String := ⟨joinNl (canonLines (splitNl s.data))⟩

/-- The comments block of the canonicalization of `s` (the lines kept
verbatim). -/
def canonComments (s : String) : List (List Char) :=
  (splitNl s.data).filter isCommentLine

/-- The normalized rule lines of the canonicalization of `s`, before
sorting. -/
def canonRules (s : String) : List (List Char) :=
  (splitNl s.data).filterMap ruleOfLine

/-!  ## The categorizer (`categorise`) -/

/-- A transaction as consumed by `categorise`: only the description and the
amount take part in classification. -/
structure Txn where
  description : String
  amount : Rat
deriving DecidableEq

/-- The rule-scanning loop of `categorise`: every matching rule overwrites
`matched`, so the last matching rule in list order wins. -/
def scanRules (descLower : String) (rules : List Rule) : Option String :=
  rules.foldl
    (fun m r => if matchesKeyword descLower r.keyword then some r.category else m) none

/-- JS truthiness of the `matched` variable (`null` and `""` are falsy). -/
def jsTruthy : Option String → Bool
  | none => false
  | some s => s ≠ ""

/-- The one special case in `categorise`:
`if (matched && String(matched).toUpperCase() === "PETROL" && amount <= 2) matched = "COFFEE";`. -/
def applyFuelOverride (amount : Rat) (matched : Option String) : Option String :=
  if jsTruthy matched = true ∧ ucStr (matched.getD "") = "PETROL" ∧ amount ≤ 2
  then some "COFFEE" else matched

/-- The final assignment in `categorise`:
`t.category = matched || "UNCATEGORISED";`. -/
def finalizeCategory (matched : Option String) : String :=
  if jsTruthy matched then matched.getD "" else "UNCATEGORISED"

/-- The category `categorise` assigns to one transaction: scan all rules
(last match wins), then the single special case — a `PETROL` result with
absolute amount at most `2` becomes `COFFEE` — then the `UNCATEGORISED`
fallback. -/
def categoriseOne (t : Txn) (rules : List Rule) : String :=
  finalizeCategory (applyFuelOverride |t.amount| (scanRules (lcStr t.description) rules))

/-- `categorise` from `script.js` (it mutates `t.category` in place; we
return the assignments). -/
def categorise (txns : List Txn) (rules : List Rule) : List (Txn × String) :=
  txns.map fun t => (t, categoriseOne t rules)

/-!  ## The Westpac PDF text ingestor -/

/-- Split on a single separator character (JS `split('x')`). -/
def splitChar (sep : Char) : List Char → List (List Char)
  | [] => [[]]
  | c :: rest =>
    if c = sep then [] :: splitChar sep rest
    else
      match splitChar sep rest with
      | [] => [[c]]
      | p :: ps => (c :: p) :: ps

/-- JS `arr.join(' ')`. -/
def joinSpaces : List String → String
  | [] => ""
  | [s] => s
  | s :: rest => s ++ " " ++ joinSpaces rest

/-- A transaction recovered from the PDF text. -/
structure PdfTxn where
  date : String
  description : String
  amount : Rat
deriving DecidableEq

/-- The month-abbreviation table of `normalisePdfDate`. -/
def monthAbbrev : List (String × String) :=
  [("Jan","01"),("Feb","02"),("Mar","03"),("Apr","04"),("May","05"),("Jun","06"),
   ("Jul","07"),("Aug","08"),("Sep","09"),("Oct","10"),("Nov","11"),("Dec","12")]

/-- JS `String.prototype.padStart(2, '0')`. -/
def padStart2 (s : String) : String :=
  if s.data.length ≥ 2 then s else ⟨List.replicate (2 - s.data.length) '0' ++ s.data⟩

/-- `normalisePdfDate` from `script.js`: split on single spaces, destructure
into day/month/year, look the month up in the table and interpolate.  A
missing field or an unknown month abbreviation interpolates as the text
`undefined`, exactly as a JS template literal renders `undefined`. -/
def normalisePdfDate (d : String) : String :=
  let parts := (splitChar ' ' d.data).map fun p => (⟨p⟩ : String)
  let day := parts.headD "undefined"
  let mon := parts.getD 1 "undefined"
  let year := parts.getD 2 "undefined"
  let monVal := ((monthAbbrev.find? (fun p => p.1 == mon)).map (·.2)).getD "undefined"
  year ++ "-" ++ monVal ++ "-" ++ padStart2 day

/-- The standalone date-marker test `^\d{1,2}\s+[A-Za-z]{3}\s+\d{4}$`.  Each
character class is disjoint from the one that follows it, so the regex
accepts exactly runs of these shapes. -/
def isDateMarker (cs : List Char) : Bool :=
  let d  := cs.takeWhile isDigitC
  let r1 := cs.dropWhile isDigitC
  let s1 := r1.takeWhile isJsSpace
  let r2 := r1.dropWhile isJsSpace
  let m  := r2.takeWhile isLetterC
  let r3 := r2.dropWhile isLetterC
  let s2 := r3.takeWhile isJsSpace
  let r4 := r3.dropWhile isJsSpace
  let y  := r4.takeWhile isDigitC
  let r5 := r4.dropWhile isDigitC
  decide (1 ≤ d.length) && decide (d.length ≤ 2) && decide (1 ≤ s1.length) &&
    decide (m.length = 3) && decide (1 ≤ s2.length) && decide (y.length = 4) &&
    r5.isEmpty

/-- The standalone amount-line test `^-?\$?\d+\.\d{2}$`. -/
def isAmountLine (cs : List Char) : Bool :=
  let cs1 := match cs with | '-' :: t => t | _ => cs
  let cs2 := match cs1 with | '$' :: t => t | _ => cs1
  let ds := cs2.takeWhile isDigitC
  let r := cs2.dropWhile isDigitC
  decide (1 ≤ ds.length) &&
    (match r with
     | ['.', a, b] => isDigitC a && isDigitC b
     | _ => false)

/-- The table-header stoplist `^(withdrawal|deposit|date|description)$/i`. -/
def isHeaderLine (l : String) : Bool :=
  decide (lcStr l ∈ (["withdrawal", "deposit", "date", "description"] : List String))

/-- The payment/transfer exclusion `^PAYMENT[- ]BPAY/i`. -/
def isPaymentBpay (description : String) : Bool :=
  "payment-bpay".data.isPrefixOf (lcStr description).data ||
    "payment bpay".data.isPrefixOf (lcStr description).data

/-- The scanner state of `parseWestpacPdfText`: the pending date, the
accumulated description lines, and the emitted transactions. -/
structure PwState where
  curDate : Option String
  curDesc : List String
  txns : List PdfTxn

/-- One line of the `parseWestpacPdfText` scan.  A date marker opens a fresh
record (discarding accumulated description lines); an amount line closes a
pending record, discarding it entirely when the joined description matches
the payment/transfer exclusion; other lines accumulate as description when a
date is pending, except table-header artifacts. -/
def pwStep (st : PwState) (line : String) : PwState :=
  if isDateMarker line.data then
    { st with curDate := some (normalisePdfDate line), curDesc := [] }
  else if isAmountLine line.data ∧ st.curDate.isSome then
    let amount := |parseAmount (some line)|
    let description := joinSpaces st.curDesc |> jsTrim
    if isPaymentBpay description then
      { st with curDate := none, curDesc := [] }
    else
      { curDate := none, curDesc := [],
        txns := st.txns ++ [⟨st.curDate.getD "", description, amount⟩] }
  else if st.curDate.isSome then
    if isHeaderLine line then st
    else { st with curDesc := st.curDesc ++ [line] }
  else st

/-- `parseWestpacPdfText` from `script.js`: split the extracted text into
trimmed non-empty lines (`split(/\n+/)`, trim, filter) and scan. -/
def parseWestpacPdfText (text : String) : List PdfTxn :=
  let lines :=
    (((splitChar '\n' text.data).map fun l => jsTrim ⟨l⟩).filter fun l => l ≠ "")
  (lines.foldl pwStep ⟨none, [], []⟩).txns

/-!  ## Helper lemmas: character classes -/

lemma isJsSpace_eq_false_of_letter {c : Char} (h : isLetterC c = true) :
    isJsSpace c = false := by
  simp only [isLetterC, isUpperC, isLowerC, Bool.or_eq_true, Bool.and_eq_true,
    decide_eq_true_eq] at h
  simp only [isJsSpace, Bool.or_eq_false_iff, decide_eq_false_iff_not]
  rcases h with ⟨h1, h2⟩ | ⟨h1, h2⟩ <;>
    refine ⟨⟨⟨⟨⟨?_, ?_⟩, ?_⟩, ?_⟩, ?_⟩, ?_⟩ <;> (intro hc; subst hc; revert h1; decide)

lemma isDigitC_eq_false_of_letter {c : Char} (h : isLetterC c = true) :
    isDigitC c = false := by
  simp only [isLetterC, isUpperC, isLowerC, Bool.or_eq_true, Bool.and_eq_true,
    decide_eq_true_eq] at h
  simp only [isDigitC, Bool.and_eq_false_iff, decide_eq_false_iff_not]
  rcases h with ⟨h1, h2⟩ | ⟨h1, h2⟩
  · right; intro hc9; exact absurd (le_trans h1 hc9) (by decide)
  · right; intro hc9; exact absurd (le_trans h1 hc9) (by decide)

/-!  ## Helper lemmas: the categorizer -/

lemma scanRules_foldl (d : String) (rules : List Rule) (init : Option String) :
    rules.foldl
        (fun m r => if matchesKeyword d r.keyword then some r.category else m) init
      = match rules.reverse.find? (fun r => matchesKeyword d r.keyword) with
        | some r => some r.category
        | none => init := by
  induction rules generalizing init with
  | nil => rfl
  | cons r rs ih =>
    rw [List.foldl_cons, ih, List.reverse_cons, List.find?_append]
    cases hfind : rs.reverse.find? (fun r => matchesKeyword d r.keyword) with
    | some r' => simp [Option.orElse]
    | none =>
      simp only [Option.orElse, List.find?]
      by_cases hm : matchesKeyword d r.keyword
      · simp [hm]
      · simp [hm]

lemma scanRules_eq_find (d : String) (rules : List Rule) :
    scanRules d rules
      = (rules.reverse.find? fun r => matchesKeyword d r.keyword).map Rule.category := by
  rw [scanRules, scanRules_foldl]
  cases rules.reverse.find? (fun r => matchesKeyword d r.keyword) <;> rfl

lemma categoriseOne_of_scan_none (t : Txn) (rules : List Rule)
    (h : scanRules (lcStr t.description) rules = none) :
    categoriseOne t rules = "UNCATEGORISED" := by
  rw [categoriseOne, h]
  rfl

lemma categoriseOne_of_scan_some (t : Txn) (rules : List Rule) (c : String)
    (h : scanRules (lcStr t.description) rules = some c) (hne : c ≠ "") :
    categoriseOne t rules =
      if ucStr c = "PETROL" ∧ |t.amount| ≤ 2 then "COFFEE" else c := by
  rw [categoriseOne, h]
  have htru : jsTruthy (some c) = true := by simp [jsTruthy, hne]
  by_cases hc : ucStr c = "PETROL" ∧ |t.amount| ≤ 2
  · rw [applyFuelOverride, if_pos ⟨htru, by simpa using hc.1, hc.2⟩, if_pos hc]
    rfl
  · rw [applyFuelOverride, if_neg (fun hcode => hc ⟨by simpa using hcode.2.1, hcode.2.2⟩),
      if_neg hc, finalizeCategory, if_pos htru, Option.getD_some]

/-!  ## Claim C4 -/

/-- C4: for every transaction and rule list, the rule scan of `categorise`
resolves to the category of the last rule in list order whose keyword
matches (each match overwrites the previous candidate), the sentinel
`UNCATEGORISED` is assigned when no rule matches — in particular for the
empty rule list — and the rules `[("coffee shop","CAFE"), ("shop","RETAIL")]`
applied to description `"coffee shop"` resolve to `RETAIL`. -/
theorem C4_categoriser_last_match_wins :
    (∀ (d : String) (rules : List Rule),
        scanRules d rules
          = (rules.reverse.find? fun r => matchesKeyword d r.keyword).map Rule.category) ∧
    (∀ (t : Txn) (rules : List Rule),
        (∀ r ∈ rules, matchesKeyword (lcStr t.description) r.keyword = false) →
          categoriseOne t rules = "UNCATEGORISED") ∧
    (∀ t : Txn, categoriseOne t [] = "UNCATEGORISED") ∧
    categoriseOne ⟨"coffee shop", 10⟩ [⟨"coffee shop", "CAFE"⟩, ⟨"shop", "RETAIL"⟩]
      = "RETAIL" := by
  refine ⟨scanRules_eq_find, fun t rules hall => ?_, fun t => ?_, ?_⟩
  · refine categoriseOne_of_scan_none t rules ?_
    rw [scanRules_eq_find, List.find?_eq_none.mpr]
    · rfl
    · intro r hr
      simpa using hall r (List.mem_reverse.mp hr)
  · exact categoriseOne_of_scan_none t [] rfl
  · rw [categoriseOne_of_scan_some ⟨"coffee shop", 10⟩ _ "RETAIL" (by decide) (by decide)]
    rw [if_neg (fun hcon => absurd hcon.1 (by decide))]

/-- Witness for C4: a transaction matched by no rule is left uncategorised. -/
theorem C4_witness :
    categoriseOne ⟨"abc", 5⟩ [⟨"zzz", "X"⟩] = "UNCATEGORISED" :=
  C4_categoriser_last_match_wins.2.1 ⟨"abc", 5⟩ [⟨"zzz", "X"⟩] (by decide)

/-!  ## Claim C5 -/

/-- C5: after the rule scan, exactly one special case applies: a resolved
category equal (up to uppercasing) to `PETROL` with absolute amount at most
the threshold `2` is overridden to `COFFEE`; a fuel-matched transaction of
amount `1.50` is reassigned while one of amount `15.00` keeps `PETROL`. -/
theorem C5_fuel_override :
    (∀ (t : Txn) (rules : List Rule) (c : String),
        scanRules (lcStr t.description) rules = some c → c ≠ "" →
          categoriseOne t rules =
            if ucStr c = "PETROL" ∧ |t.amount| ≤ 2 then "COFFEE" else c) ∧
    categoriseOne ⟨"fuel stop", 1.5⟩ [⟨"fuel", "PETROL"⟩] = "COFFEE" ∧
    categoriseOne ⟨"fuel stop", 15⟩ [⟨"fuel", "PETROL"⟩] = "PETROL" := by
  refine ⟨categoriseOne_of_scan_some, ?_, ?_⟩
  · rw [categoriseOne_of_scan_some ⟨"fuel stop", 1.5⟩ _ "PETROL" (by decide) (by decide)]
    rw [if_pos ⟨by decide, by rw [abs_le]; constructor <;> norm_num⟩]
  · rw [categoriseOne_of_scan_some ⟨"fuel stop", 15⟩ _ "PETROL" (by decide) (by decide)]
    rw [if_neg (fun hcon => absurd hcon.2 (by rw [abs_le]; push_neg; intro h2; norm_num))]

/-- Witness for C5: the override characterization applied to a concrete
fuel-matched transaction. -/
theorem C5_witness :
    categoriseOne ⟨"fuel stop", 1.5⟩ [⟨"fuel", "PETROL"⟩]
      = if ucStr "PETROL" = "PETROL" ∧ |(⟨"fuel stop", 1.5⟩ : Txn).amount| ≤ 2
        then "COFFEE" else "PETROL" :=
  C5_fuel_override.1 ⟨"fuel stop", 1.5⟩ [⟨"fuel", "PETROL"⟩] "PETROL" (by decide) (by decide)

/-!  ## Claim C8 -/

/-- C8: on `["1 Jan 2025", "COLES", "12.34"]` the PDF text ingestor yields
exactly one transaction `{date := "2025-01-01", description := "COLES",
amount := 12.34}`, and on `["1 Jan 2025", "PAYMENT-BPAY THANK YOU",
"50.00"]` it yields no transaction: the closed record's description matches
the payment/transfer exclusion and is discarded. -/
theorem C8_pdf_ingest_examples :
    parseWestpacPdfText "1 Jan 2025\nCOLES\n12.34"
        = [{ date := "2025-01-01", description := "COLES", amount := 12.34 }] ∧
    parseWestpacPdfText "1 Jan 2025\nPAYMENT-BPAY THANK YOU\n50.00" = [] := by
  constructor
  · have h : parseWestpacPdfText "1 Jan 2025\nCOLES\n12.34"
        = [{ date := "2025-01-01", description := "COLES",
             amount := |ratOfDec (some (1234, 2))| }] := rfl
    have hamt : |ratOfDec (some (1234, 2))| = (12.34 : Rat) := by
      show |(1234 : Rat) / (10 : Rat) ^ 2| = 12.34
      rw [abs_of_nonneg (by norm_num)]
      norm_num
    rw [h, hamt]
  · rfl

/-!  ## Claim C9 -/

/-- C9: `parseAmount` is total and never yields `NaN`: `null`, the empty
string and non-numeric input give `0` (the `NaN` case of the inner numeric
conversion is collapsed to `0` by `|| 0`), and `"$1,234.56"` parses to
`1234.56` after stripping every character outside `[\d\-,.]` and then
removing commas. -/
theorem C9_parseAmount_total :
    parseAmount none = 0 ∧
    parseAmount (some "") = 0 ∧
    parseAmount (some "abc") = 0 ∧
    parseAmount (some "$1,234.56") = 1234.56 ∧
    (∀ s : String,
      jsNumber ((s.data.filter isAmountChar).filter (fun c => c ≠ ',')) = none →
        parseAmount (some s) = 0) := by
  refine ⟨rfl, ?_, ?_, ?_, fun s h => ?_⟩
  · have h : jsNumber ((("" : String).data.filter isAmountChar).filter (fun c => c ≠ ','))
        = some (0, 0) := rfl
    simp only [parseAmount]; rw [h]; norm_num [ratOfDec]
  · have h : jsNumber ((("abc" : String).data.filter isAmountChar).filter (fun c => c ≠ ','))
        = some (0, 0) := rfl
    simp only [parseAmount]; rw [h]; norm_num [ratOfDec]
  · have h : jsNumber ((("$1,234.56" : String).data.filter isAmountChar).filter
        (fun c => c ≠ ',')) = some (123456, 2) := rfl
    simp only [parseAmount]; rw [h]
    show (123456 : Rat) / (10 : Rat) ^ 2 = 1234.56
    norm_num
  · simp only [parseAmount]; rw [h]; rfl

/-- Witness for C9: a post-stripping shape JS still rejects (`"--"`) is
collapsed to `0`. -/
theorem C9_witness : parseAmount (some "--") = 0 :=
  C9_parseAmount_total.2.2.2.2 "--" rfl

/-!  ## Claim C10 -/

/-- C10 (implicit behaviour): the date-marker test accepts `D Xxx YYYY` for
an arbitrary three-letter word, not only the twelve month abbreviations, and
a record opened by such a line is emitted with the literal text `undefined`
as its month component rather than being rejected. -/
theorem C10_date_marker_any_three_letters :
    (∀ a b c : Char, isLetterC a = true → isLetterC b = true → isLetterC c = true →
        isDateMarker ['1', ' ', a, b, c, ' ', '2', '0', '2', '5'] = true) ∧
    normalisePdfDate "1 Foo 2025" = "2025-undefined-01" ∧
    parseWestpacPdfText "1 Foo 2025\nBLAH\n9.99"
        = [{ date := "2025-undefined-01", description := "BLAH", amount := 9.99 }] := by
  refine ⟨fun a b c ha hb hc => ?_, rfl, ?_⟩
  · simp +decide [isDateMarker, List.takeWhile_cons, List.dropWhile_cons, ha, hb, hc,
      isJsSpace_eq_false_of_letter ha, isDigitC_eq_false_of_letter ha,
      isJsSpace_eq_false_of_letter hb, isJsSpace_eq_false_of_letter hc]
  · have h : parseWestpacPdfText "1 Foo 2025\nBLAH\n9.99"
        = [{ date := "2025-undefined-01", description := "BLAH",
             amount := |ratOfDec (some (999, 2))| }] := rfl
    have hamt : |ratOfDec (some (999, 2))| = (9.99 : Rat) := by
      show |(999 : Rat) / (10 : Rat) ^ 2| = 9.99
      rw [abs_of_nonneg (by norm_num)]
      norm_num
    rw [h, hamt]

/-- Witness for C10: a line with the non-month word `Foo` passes the
date-marker test. -/
theorem C10_witness :
    isDateMarker ['1', ' ', 'F', 'o', 'o', ' ', '2', '0', '2', '5'] = true :=
  C10_date_marker_any_three_letters.1 'F' 'o' 'o' (by decide) (by decide) (by decide)

/-!  ## Helper lemmas: case conversion -/

lemma ucChar_of_not_mem {c : Char} (h : ∀ p ∈ casePairs, p.1 ≠ c) : ucChar c = c := by
  rw [ucChar, List.find?_eq_none.mpr, Option.map_none', Option.getD_none]
  intro p hp
  simpa using h p hp

lemma lcChar_of_not_mem {c : Char} (h : ∀ p ∈ casePairs, p.2 ≠ c) : lcChar c = c := by
  rw [lcChar, List.find?_eq_none.mpr, Option.map_none', Option.getD_none]
  intro p hp
  simpa using h p hp

lemma lcChar_ucChar (c : Char) : lcChar (ucChar c) = lcChar c := by
  by_cases hm : ∃ p ∈ casePairs, p.1 = c
  · obtain ⟨p, hp, hpc⟩ := hm
    subst hpc
    fin_cases hp <;> decide
  · push_neg at hm
    rw [ucChar_of_not_mem hm]

lemma lcL_ucL (xs : List Char) : lcL (ucL xs) = lcL xs := by
  simp [lcL, ucL, List.map_map, Function.comp_def, lcChar_ucChar]

lemma ucStr_eq_empty_iff (k : String) : ucStr k = "" ↔ k = "" := by
  constructor
  · intro h
    have hd : ucL k.data = [] := congrArg String.data h
    rw [ucL, List.map_eq_nil_iff] at hd
    exact String.ext hd
  · intro h; subst h; rfl

/-!  ## Claim C6 -/

/-- C6: the match engine requires boundary-delimited whole tokens and is
case-insensitive: `"woolworths"` matches inside `"paid at woolworths metro"`
but not inside `"woolworthsextra"` (substring occurrence without a token
boundary), an empty keyword never matches any description, and uppercasing
the description and the keyword never changes the result. -/
theorem C6_match_boundary_case_insensitive :
    matchesKeyword "paid at woolworths metro" "woolworths" = true ∧
    matchesKeyword "woolworthsextra" "woolworths" = false ∧
    (∀ d : String, matchesKeyword d "" = false) ∧
    (∀ d k : String, matchesKeyword (ucStr d) (ucStr k) = matchesKeyword d k) := by
  refine ⟨by decide, by decide, fun d => by simp [matchesKeyword], fun d k => ?_⟩
  by_cases hk : k = ""
  · subst hk; rfl
  · rw [matchesKeyword, matchesKeyword, if_neg hk,
      if_neg (fun h => hk ((ucStr_eq_empty_iff k).mp h))]
    show matchCore (lcL (ucL d.data)) (lcL (ucL k.data)) = matchCore (lcL d.data) (lcL k.data)
    rw [lcL_ucL, lcL_ucL]

/-!  ## Claim C7: the three-token matching discipline

`Match3Spec` states the claim's reading directly: the three tokens occur in
order, each consecutive pair separated by one-or-more boundary characters
only, the first preceded by boundary-or-start and the last followed by
boundary-or-end. -/

/-- A non-empty run of boundary characters. -/
def delimRun (g : List Char) : Prop := g ≠ [] ∧ ∀ c ∈ g, isDelim c = true

/-- The suffix after the match is empty or starts with a boundary. -/
def boundaryOrEnd (post : List Char) : Prop :=
  post = [] ∨ ∃ c rest, post = c :: rest ∧ isDelim c = true

/-- The text before the match is empty or ends with a boundary. -/
def boundaryOrStart (pre : List Char) : Prop :=
  pre = [] ∨ ∃ pre2 d, pre = pre2 ++ [d] ∧ isDelim d = true

/-- The claim's specification of a three-token match. -/
def Match3Spec (text t0 t1 t2 : List Char) : Prop :=
  ∃ pre g1 g2 post,
    text = pre ++ (t0 ++ (g1 ++ (t1 ++ (g2 ++ (t2 ++ post))))) ∧
    boundaryOrStart pre ∧ delimRun g1 ∧ delimRun g2 ∧ boundaryOrEnd post

lemma boundaryHead_iff (post : List Char) : boundaryHead post = true ↔ boundaryOrEnd post := by
  cases post with
  | nil => simp [boundaryHead, boundaryOrEnd]
  | cons c rest =>
    simp only [boundaryHead, boundaryOrEnd, List.cons.injEq]
    constructor
    · intro h; exact Or.inr ⟨c, rest, ⟨rfl, rfl⟩, h⟩
    · rintro (h | ⟨c', r', ⟨rfl, rfl⟩, h⟩)
      · exact absurd h (by simp)
      · exact h

lemma afterDelims_mem (cs r : List Char) :
    r ∈ afterDelims cs ↔ ∃ g, delimRun g ∧ cs = g ++ r := by
  induction cs with
  | nil =>
    simp only [afterDelims, List.not_mem_nil, false_iff]
    rintro ⟨g, hg, he⟩
    exact hg.1 (List.append_eq_nil.mp he.symm).1
  | cons c cs ih =>
    rw [afterDelims]
    by_cases hd : isDelim c = true
    · rw [if_pos hd]
      simp only [List.mem_cons]
      constructor
      · rintro (rfl | hr)
        · exact ⟨[c], ⟨by simp, by simpa using hd⟩, rfl⟩
        · obtain ⟨g, hg, rfl⟩ := ih.mp hr
          refine ⟨c :: g, ⟨by simp, ?_⟩, rfl⟩
          intro x hx
          rcases List.mem_cons.mp hx with rfl | hx
          · exact hd
          · exact hg.2 x hx
      · rintro ⟨g, hg, he⟩
        cases g with
        | nil => exact absurd rfl hg.1
        | cons x g' =>
          obtain ⟨rfl, he'⟩ : x = c ∧ cs = g' ++ r := by
            rw [List.cons_append] at he
            exact ⟨(List.cons.injEq _ _ _ _ ▸ he).1.symm, (List.cons.injEq _ _ _ _ ▸ he).2⟩
          cases g' with
          | nil => exact Or.inl he'.symm
          | cons y g'' =>
            refine Or.inr (ih.mpr ⟨y :: g'', ⟨by simp, ?_⟩, he'⟩)
            intro z hz
            exact hg.2 z (List.mem_cons_of_mem _ hz)
    · rw [if_neg hd]
      simp only [List.not_mem_nil, false_iff]
      rintro ⟨g, hg, he⟩
      cases g with
      | nil => exact hg.1 rfl
      | cons x g' =>
        rw [List.cons_append] at he
        have hx : x = c := ((List.cons.injEq _ _ _ _ ▸ he).1).symm
        exact hd (hx ▸ hg.2 x (List.mem_cons_self x g'))

lemma m1At_iff (tok cs : List Char) :
    m1At tok cs = true ↔ ∃ post, cs = tok ++ post ∧ boundaryOrEnd post := by
  rw [m1At, Bool.and_eq_true, List.isPrefixOf_iff_prefix]
  constructor
  · rintro ⟨⟨post, rfl⟩, hb⟩
    rw [List.drop_left] at hb
    exact ⟨post, rfl, (boundaryHead_iff post).mp hb⟩
  · rintro ⟨post, rfl, hb⟩
    exact ⟨⟨post, rfl⟩, by rw [List.drop_left]; exact (boundaryHead_iff post).mpr hb⟩

lemma m3At_iff (t0 t1 t2 cs : List Char) :
    m3At t0 t1 t2 cs = true ↔
      ∃ g1 g2 post, cs = t0 ++ (g1 ++ (t1 ++ (g2 ++ (t2 ++ post)))) ∧
        delimRun g1 ∧ delimRun g2 ∧ boundaryOrEnd post := by
  rw [m3At, Bool.and_eq_true, List.isPrefixOf_iff_prefix, List.any_eq_true]
  constructor
  · rintro ⟨⟨r0, rfl⟩, r1, hr1mem, hr1⟩
    rw [List.drop_left] at hr1mem
    obtain ⟨g1, hg1, rfl⟩ := (afterDelims_mem r0 r1).mp hr1mem
    rw [Bool.and_eq_true, List.isPrefixOf_iff_prefix, List.any_eq_true] at hr1
    obtain ⟨⟨r1b, rfl⟩, r2, hr2mem, hr2⟩ := hr1
    rw [List.drop_left] at hr2mem
    obtain ⟨g2, hg2, rfl⟩ := (afterDelims_mem r1b r2).mp hr2mem
    rw [Bool.and_eq_true, List.isPrefixOf_iff_prefix] at hr2
    obtain ⟨⟨post, rfl⟩, hb⟩ := hr2
    rw [List.drop_left] at hb
    exact ⟨g1, g2, post, rfl, hg1, hg2, (boundaryHead_iff post).mp hb⟩
  · rintro ⟨g1, g2, post, rfl, hg1, hg2, hbe⟩
    refine ⟨⟨g1 ++ (t1 ++ (g2 ++ (t2 ++ post))), rfl⟩, ?_⟩
    rw [List.drop_left]
    refine ⟨t1 ++ (g2 ++ (t2 ++ post)), (afterDelims_mem _ _).mpr ⟨g1, hg1, rfl⟩, ?_⟩
    rw [Bool.and_eq_true, List.isPrefixOf_iff_prefix]
    refine ⟨⟨g2 ++ (t2 ++ post), rfl⟩, ?_⟩
    rw [List.drop_left, List.any_eq_true]
    refine ⟨t2 ++ post, (afterDelims_mem _ _).mpr ⟨g2, hg2, rfl⟩, ?_⟩
    rw [Bool.and_eq_true, List.isPrefixOf_iff_prefix]
    exact ⟨⟨post, rfl⟩, by rw [List.drop_left]; exact (boundaryHead_iff post).mpr hbe⟩

lemma scanAfter_iff (p : List Char → Bool) (cs : List Char) :
    scanAfter p cs = true ↔
      ∃ pre d rest, cs = pre ++ d :: rest ∧ isDelim d = true ∧ p rest = true := by
  induction cs with
  | nil =>
    simp only [scanAfter, Bool.false_eq_true, false_iff]
    rintro ⟨pre, d, rest, he, _, _⟩
    exact absurd he.symm (by simp)
  | cons c cs ih =>
    rw [scanAfter, Bool.or_eq_true, Bool.and_eq_true, ih]
    constructor
    · rintro (⟨hd, hp⟩ | ⟨pre, d, rest, rfl, hd, hp⟩)
      · exact ⟨[], c, cs, rfl, hd, hp⟩
      · exact ⟨c :: pre, d, rest, rfl, hd, hp⟩
    · rintro ⟨pre, d, rest, he, hd, hp⟩
      cases pre with
      | nil =>
        obtain ⟨rfl, rfl⟩ : c = d ∧ cs = rest := by simpa using he
        exact Or.inl ⟨hd, hp⟩
      | cons x pre' =>
        obtain ⟨rfl, he'⟩ : c = x ∧ cs = pre' ++ d :: rest := by simpa using he
        exact Or.inr ⟨pre', d, rest, he', hd, hp⟩

lemma scanPos_iff (p : List Char → Bool) (cs : List Char) :
    scanPos p cs = true ↔
      ∃ pre rest, cs = pre ++ rest ∧ boundaryOrStart pre ∧ p rest = true := by
  rw [scanPos, Bool.or_eq_true, scanAfter_iff]
  constructor
  · rintro (hp | ⟨pre, d, rest, rfl, hd, hp⟩)
    · exact ⟨[], cs, rfl, Or.inl rfl, hp⟩
    · exact ⟨pre ++ [d], rest, by simp, Or.inr ⟨pre, d, rfl, hd⟩, hp⟩
  · rintro ⟨pre, rest, rfl, hb, hp⟩
    rcases hb with rfl | ⟨pre2, d, rfl, hd⟩
    · exact Or.inl (by simpa using hp)
    · exact Or.inr ⟨pre2, d, rest, by simp, hd, hp⟩

/-- C7: for a keyword of exactly three whitespace-delimited tokens, the
match engine succeeds exactly when the three tokens appear in order, each
consecutive pair separated solely by one-or-more boundary characters, the
first token preceded by boundary-or-start and the last followed by
boundary-or-end; `"coles express fuel"` matches
`"COLES EXPRESS - FUEL PURCHASE"` but not `"fuel coles express"`. -/
theorem C7_three_token_in_order :
    (∀ (d k : String) (t0 t1 t2 : List Char),
        wsSplit (lcL k.data) = [t0, t1, t2] →
          (matchesKeyword d k = true ↔ Match3Spec (lcL d.data) t0 t1 t2)) ∧
    matchesKeyword "COLES EXPRESS - FUEL PURCHASE" "coles express fuel" = true ∧
    matchesKeyword "fuel coles express" "coles express fuel" = false := by
  refine ⟨fun d k t0 t1 t2 hsplit => ?_, by decide, by decide⟩
  have hk : k ≠ "" := by
    intro h
    subst h
    simp [wsSplit, wsSplitAux, lcL] at hsplit
  rw [matchesKeyword, if_neg hk]
  have hm : matchCore (lcL d.data) (lcL k.data) = scanPos (m3At t0 t1 t2) (lcL d.data) := by
    rw [matchCore, hsplit]
  rw [hm, scanPos_iff]
  constructor
  · rintro ⟨pre, rest, he, hbs, hmr⟩
    obtain ⟨g1, g2, post, hrest, hg1, hg2, hbe⟩ := (m3At_iff t0 t1 t2 rest).mp hmr
    exact ⟨pre, g1, g2, post, by rw [he, hrest], hbs, hg1, hg2, hbe⟩
  · rintro ⟨pre, g1, g2, post, he, hbs, hg1, hg2, hbe⟩
    exact ⟨pre, t0 ++ (g1 ++ (t1 ++ (g2 ++ (t2 ++ post)))), he, hbs,
      (m3At_iff t0 t1 t2 _).mpr ⟨g1, g2, post, rfl, hg1, hg2, hbe⟩⟩

/-- Witness for C7: the characterization instantiated at the claim's own
example keyword and description. -/
theorem C7_witness :
    matchesKeyword "COLES EXPRESS - FUEL PURCHASE" "coles express fuel" = true
      ↔ Match3Spec (lcL ("COLES EXPRESS - FUEL PURCHASE" : String).data)
          "coles".data "express".data "fuel".data :=
  C7_three_token_in_order.1 "COLES EXPRESS - FUEL PURCHASE" "coles express fuel"
    "coles".data "express".data "fuel".data (by decide)

end SpendLite

namespace SpendLite

lemma splitArrow_cons_of_ne (c : Char) (rest : List Char)
    (h : ¬(c = '=' ∧ rest.head? = some '>')) :
    splitArrow (c :: rest) =
      match splitArrow rest with
      | [] => [[c]]
      | p :: ps => (c :: p) :: ps := by
  rw [splitArrow.eq_def]
  split
  · simp_all
  · rename_i heq
    exfalso
    apply h
    injection heq with h1 h2
    exact ⟨h1, by rw [h2]; rfl⟩
  · rename_i heq
    injection heq with h1 h2
    subst h1; subst h2
    rfl

lemma splitArrow_ne_nil (cs : List Char) : splitArrow cs ≠ [] := by
  cases cs with
  | nil => simp [splitArrow]
  | cons c rest =>
    rw [splitArrow.eq_def]
    split
    · simp
    · simp
    · split <;> simp

lemma arrowFree_cons (a : Char) (rest : List Char) (h : arrowFree (a :: rest) = true) :
    arrowFree rest = true := by
  cases rest with
  | nil => rfl
  | cons b r =>
    rw [arrowFree, Bool.and_eq_true] at h
    exact h.2

lemma arrowFree_head (a : Char) (rest : List Char) (h : arrowFree (a :: rest) = true) :
    ¬(a = '=' ∧ rest.head? = some '>') := by
  rintro ⟨rfl, hh⟩
  cases rest with
  | nil => simp at hh
  | cons b r =>
    rw [List.head?_cons, Option.some.injEq] at hh
    subst hh
    rw [arrowFree, Bool.and_eq_true] at h
    simp at h

lemma splitArrow_of_arrowFree (cs : List Char) (h : arrowFree cs = true) :
    splitArrow cs = [cs] := by
  induction cs with
  | nil => rfl
  | cons c rest ih =>
    rw [splitArrow_cons_of_ne c rest (arrowFree_head c rest h),
      ih (arrowFree_cons c rest h)]

lemma splitArrow_head_part (cs p : List Char) (ps : List (List Char))
    (h : splitArrow cs = p :: ps) (hp : p ≠ []) : p.head? = cs.head? := by
  cases cs with
  | nil =>
    rw [splitArrow] at h
    injection h with h1 _
    exact absurd h1.symm hp
  | cons c rest =>
    by_cases harr : c = '=' ∧ rest.head? = some '>'
    · obtain ⟨rfl, hh⟩ := harr
      cases rest with
      | nil => simp at hh
      | cons b r =>
        rw [List.head?_cons, Option.some.injEq] at hh
        subst hh
        rw [splitArrow] at h
        injection h with h1 _
        exact absurd h1.symm hp
    · rw [splitArrow_cons_of_ne c rest harr] at h
      rcases hq : splitArrow rest with _ | ⟨q, qs⟩
      · exact absurd hq (splitArrow_ne_nil rest)
      · rw [hq] at h
        injection h with h1 _
        rw [← h1]
        rfl

lemma arrowFree_of_parts (cs : List Char) : ∀ p ∈ splitArrow cs, arrowFree p = true := by
  induction cs using splitArrow.induct with
  | case1 =>
    intro p hp
    rw [splitArrow] at hp
    rcases List.mem_cons.mp hp with rfl | hp
    · rfl
    · simp at hp
  | case2 rest ih =>
    intro p hp
    rw [splitArrow] at hp
    rcases List.mem_cons.mp hp with rfl | hp
    · rfl
    · exact ih p hp
  | case3 c rest hcond hnil ih => exact absurd hnil (splitArrow_ne_nil rest)
  | case4 c rest hcond p0 ps hps ih =>
    intro p hp
    have hne : ¬(c = '=' ∧ rest.head? = some '>') := by
      rintro ⟨rfl, hh⟩
      cases rest with
      | nil => simp at hh
      | cons b r =>
        rw [List.head?_cons, Option.some.injEq] at hh
        exact hcond r rfl (by rw [hh])
    rw [splitArrow_cons_of_ne c rest hne, hps] at hp
    rcases List.mem_cons.mp hp with rfl | hp
    · have hp0free : arrowFree p0 = true := ih p0 (hps ▸ List.mem_cons_self p0 ps)
      cases hq : p0 with
      | nil => rfl
      | cons b r =>
        subst hq
        rw [arrowFree, Bool.and_eq_true]
        refine ⟨?_, hp0free⟩
        have hb : (b :: r).head? = rest.head? :=
          splitArrow_head_part rest (b :: r) ps hps (by simp)
        rw [List.head?_cons] at hb
        by_contra hbad
        rw [Bool.not_eq_true, Bool.not_eq_false', Bool.and_eq_true,
          decide_eq_true_eq, decide_eq_true_eq] at hbad
        exact hne ⟨hbad.1, by rw [← hb, hbad.2]⟩
    · exact ih p (hps ▸ List.mem_cons_of_mem p0 hp)

lemma mem_of_mem_splitArrow {cs p : List Char} {a : Char}
    (hp : p ∈ splitArrow cs) (ha : a ∈ p) : a ∈ cs := by
  induction cs using splitArrow.induct generalizing p with
  | case1 =>
    rw [splitArrow] at hp
    rcases List.mem_cons.mp hp with rfl | hp
    · simp at ha
    · simp at hp
  | case2 rest ih =>
    rw [splitArrow] at hp
    rcases List.mem_cons.mp hp with rfl | hp
    · simp at ha
    · exact List.mem_cons_of_mem _ (List.mem_cons_of_mem _ (ih hp ha))
  | case3 c rest hcond hnil ih => exact absurd hnil (splitArrow_ne_nil rest)
  | case4 c rest hcond p0 ps hps ih =>
    have hne : ¬(c = '=' ∧ rest.head? = some '>') := by
      rintro ⟨rfl, hh⟩
      cases rest with
      | nil => simp at hh
      | cons b r =>
        rw [List.head?_cons, Option.some.injEq] at hh
        exact hcond r rfl (by rw [hh])
    rw [splitArrow_cons_of_ne c rest hne, hps] at hp
    rcases List.mem_cons.mp hp with rfl | hp
    · rcases List.mem_cons.mp ha with rfl | ha
      · exact List.mem_cons_self a rest
      · exact List.mem_cons_of_mem c (ih (hps ▸ List.mem_cons_self p0 ps) ha)
    · exact List.mem_cons_of_mem c (ih (hps ▸ List.mem_cons_of_mem p0 hp) ha)

lemma splitArrow_append (xs ys : List Char) (hfree : arrowFree xs = true)
    (hlast : xs.getLast? ≠ some '=') (p : List Char) (ps : List (List Char))
    (hys : splitArrow ys = p :: ps) :
    splitArrow (xs ++ ys) = (xs ++ p) :: ps := by
  induction xs with
  | nil => simpa using hys
  | cons x xs' ih =>
    have hcondx : ¬(x = '=' ∧ (xs' ++ ys).head? = some '>') := by
      rintro ⟨rfl, hh⟩
      cases xs' with
      | nil => simp at hlast
      | cons b r =>
        rw [List.cons_append, List.head?_cons, Option.some.injEq] at hh
        subst hh
        rw [arrowFree, Bool.and_eq_true] at hfree
        simp at hfree
    rw [List.cons_append, splitArrow_cons_of_ne x (xs' ++ ys) hcondx,
      ih (arrowFree_cons x xs' hfree) (fun hl => ?_)]
    · rfl
    · cases xs' with
      | nil => simp at hl
      | cons b r =>
        rw [List.getLast?_cons_cons] at hlast
        exact hlast hl

end SpendLite

namespace SpendLite

lemma head?_dropWhile_false (p : Char → Bool) (l : List Char) (c : Char)
    (h : (l.dropWhile p).head? = some c) : p c = false := by
  induction l with
  | nil => simp at h
  | cons x t ih =>
    rw [List.dropWhile_cons] at h
    cases hpx : p x with
    | true => rw [hpx, if_pos rfl] at h; exact ih h
    | false =>
      rw [hpx] at h
      simp only [Bool.false_eq_true, if_false] at h
      rw [List.head?_cons, Option.some.injEq] at h
      subst h
      exact hpx

lemma trimRightC_prefix (xs : List Char) : trimRightC xs <+: xs := by
  rw [trimRightC, ← List.reverse_suffix, List.reverse_reverse]
  exact List.dropWhile_suffix _

lemma prefix_head?_eq {xs ys : List Char} (h : xs <+: ys) (hne : xs ≠ []) :
    ys.head? = xs.head? := by
  obtain ⟨t, rfl⟩ := h
  cases xs with
  | nil => exact absurd rfl hne
  | cons x xs' => rfl

lemma trimC_head_false (xs : List Char) (c : Char)
    (h : (trimC xs).head? = some c) : isJsSpace c = false := by
  rw [trimC] at h
  have hpre : trimRightC (trimLeftC xs) <+: trimLeftC xs := trimRightC_prefix _
  have hne : trimRightC (trimLeftC xs) ≠ [] := by
    intro hnil; rw [hnil] at h; simp at h
  rw [← prefix_head?_eq hpre hne] at h
  exact head?_dropWhile_false _ _ _ h

lemma trimC_getLast_false (xs : List Char) (c : Char)
    (h : (trimC xs).getLast? = some c) : isJsSpace c = false := by
  rw [trimC, trimRightC, List.getLast?_reverse] at h
  exact head?_dropWhile_false _ _ _ h

lemma trimLeftC_eq_self (xs : List Char)
    (h : ∀ c, xs.head? = some c → isJsSpace c = false) : trimLeftC xs = xs := by
  cases xs with
  | nil => rfl
  | cons x t =>
    rw [trimLeftC, List.dropWhile_cons, h x rfl]
    simp

lemma trimRightC_eq_self (xs : List Char)
    (h : ∀ c, xs.getLast? = some c → isJsSpace c = false) : trimRightC xs = xs := by
  rw [trimRightC]
  cases hrev : xs.reverse with
  | nil => simpa using congrArg List.reverse hrev
  | cons y t =>
    have hy : xs.getLast? = some y := by
      rw [← List.head?_reverse, hrev, List.head?_cons]
    rw [List.dropWhile_cons, h y hy]
    simp only [Bool.false_eq_true, if_false]
    rw [← hrev, List.reverse_reverse]

lemma trimC_eq_self (xs : List Char)
    (h1 : ∀ c, xs.head? = some c → isJsSpace c = false)
    (h2 : ∀ c, xs.getLast? = some c → isJsSpace c = false) : trimC xs = xs := by
  rw [trimC, trimLeftC_eq_self xs h1, trimRightC_eq_self xs h2]

lemma trimC_idem (xs : List Char) : trimC (trimC xs) = trimC xs := by
  refine trimC_eq_self _ (fun c hc => trimC_head_false xs c hc)
    (fun c hc => trimC_getLast_false xs c hc)

lemma mem_of_mem_trimC {xs : List Char} {c : Char} (h : c ∈ trimC xs) : c ∈ xs := by
  rw [trimC] at h
  have h1 : c ∈ trimLeftC xs := ( trimRightC_prefix _).sublist.mem h
  exact (List.dropWhile_suffix _).sublist.mem h1

lemma trimRightC_append_space (ys : List Char) (c : Char) (hc : isJsSpace c = true) :
    trimRightC (ys ++ [c]) = trimRightC ys := by
  rw [trimRightC, trimRightC, List.reverse_append, List.reverse_singleton,
    List.singleton_append, List.dropWhile_cons, hc]
  simp

lemma trimC_append_space (xs : List Char) (c : Char) (hc : isJsSpace c = true) :
    trimC (xs ++ [c]) = trimC xs := by
  rw [trimC, trimC, trimLeftC, trimLeftC, List.dropWhile_append]
  by_cases he : (xs.dropWhile isJsSpace).isEmpty
  · rw [if_pos he]
    have : List.dropWhile isJsSpace [c] = [] := by
      rw [show [c] = c :: [] from rfl, List.dropWhile_cons, hc]
      simp
    rw [this]
    rw [List.isEmpty_iff] at he
    rw [he]
  · rw [if_neg he]
    exact trimRightC_append_space _ c hc

lemma trimC_cons_space (xs : List Char) (c : Char) (hc : isJsSpace c = true) :
    trimC (c :: xs) = trimC xs := by
  rw [trimC, trimC, trimLeftC, trimLeftC, List.dropWhile_cons, hc]
  simp

end SpendLite

namespace SpendLite

lemma splitNlAux_nl (rest acc : List Char) :
    splitNlAux ('\n' :: rest) acc = acc.reverse :: splitNlAux rest [] := rfl

lemma splitNlAux_crnl (rest acc : List Char) :
    splitNlAux ('\r' :: '\n' :: rest) acc = acc.reverse :: splitNlAux rest [] := rfl

lemma splitNlAux_cr (rest acc : List Char) (h : rest.head? ≠ some '\n') :
    splitNlAux ('\r' :: rest) acc = splitNlAux rest ('\r' :: acc) := by
  rw [splitNlAux.eq_def]
  split
  · rename_i heq; exact absurd heq (by simp)
  · rename_i heq
    injection heq with h1 _
    exact absurd h1.symm (by decide)
  · rename_i heq
    injection heq with h1 h2
    exact absurd (by rw [h2]; rfl : rest.head? = some '\n') h
  · rename_i heq
    injection heq with h1 h2
    rw [h2]
  · rename_i hc1 hc2 hc3 heq
    injection heq with h1 h2
    exact absurd h1.symm hc3

lemma splitNlAux_other (c : Char) (rest acc : List Char)
    (hc1 : c ≠ '\n') (hc2 : c ≠ '\r') :
    splitNlAux (c :: rest) acc = splitNlAux rest (c :: acc) := by
  rw [splitNlAux.eq_def]
  split
  · rename_i heq; exact absurd heq (by simp)
  · rename_i heq
    injection heq with h1 _
    exact absurd h1 hc1
  · rename_i heq
    injection heq with h1 _
    exact absurd h1 hc2
  · rename_i heq
    injection heq with h1 _
    exact absurd h1 hc2
  · rename_i heq
    injection heq with h1 h2
    rw [h1, h2]

lemma splitNlAux_no_nl (cs : List Char) (acc : List Char) (h : '\n' ∉ cs) :
    splitNlAux cs acc = [acc.reverse ++ cs] := by
  induction cs, acc using splitNlAux.induct with
  | case1 acc => simp [splitNlAux]
  | case2 rest acc ih => exact absurd (List.mem_cons_self _ _) h
  | case3 rest acc ih => exact absurd (List.mem_cons_of_mem _ (List.mem_cons_self _ _)) h
  | case4 rest acc hcond ih =>
    have hrest : '\n' ∉ rest := fun hm => h (List.mem_cons_of_mem _ hm)
    rw [splitNlAux_cr rest acc (by
      intro hh
      cases rest with
      | nil => simp at hh
      | cons d r =>
        rw [List.head?_cons, Option.some.injEq] at hh
        exact hrest (hh ▸ List.mem_cons_self d r))]
    rw [ih hrest]
    simp

  | case5 c rest acc hc1 hcond hc2 ih =>
    have hrest : '\n' ∉ rest := fun hm => h (List.mem_cons_of_mem _ hm)
    rw [splitNlAux_other c rest acc (fun hh => hc1 hh) (fun hh => hc2 hh), ih hrest]
    simp

lemma splitNl_no_nl (cs : List Char) (h : '\n' ∉ cs) : splitNl cs = [cs] := by
  rw [splitNl, splitNlAux_no_nl cs [] h]
  rfl

lemma splitNlAux_append_nl (x : List Char) (hnl : '\n' ∉ x) (hcr : x.getLast? ≠ some '\r') :
    ∀ (rest acc : List Char),
      splitNlAux (x ++ '\n' :: rest) acc = (acc.reverse ++ x) :: splitNlAux rest [] := by
  induction x with
  | nil => intro rest acc; rw [List.nil_append, splitNlAux_nl]; simp
  | cons c x' ih =>
    intro rest acc
    have hc : c ≠ '\n' := fun hh => hnl (hh ▸ List.mem_cons_self c x')
    have hnl' : '\n' ∉ x' := fun hm => hnl (List.mem_cons_of_mem _ hm)
    by_cases hcr' : c = '\r'
    · subst hcr'
      cases x' with
      | nil => simp at hcr
      | cons d x'' =>
        have hd : d ≠ '\n' := fun hh => hnl' (hh ▸ List.mem_cons_self d x'')
        rw [List.cons_append, splitNlAux_cr _ _ (by
          rw [List.cons_append, List.head?_cons]
          intro hh
          exact hd (Option.some.injEq _ _ ▸ hh))]
        rw [ih hnl' (by rwa [List.getLast?_cons_cons] at hcr) rest]
        simp
    · rw [List.cons_append, splitNlAux_other c _ _ hc hcr']
      cases hx' : x' with
      | nil =>
        subst hx'
        rw [List.nil_append, splitNlAux_nl]
        simp
      | cons d x'' =>
        subst hx'
        rw [ih hnl' (by
          intro hl
          rw [List.getLast?_cons_cons] at hcr
          exact hcr hl) rest]
        simp

lemma joinNl_cons_cons (x y : List Char) (t : List (List Char)) :
    joinNl (x :: y :: t) = x ++ '\n' :: joinNl (y :: t) := rfl

lemma splitNl_joinNl (ls : List (List Char)) (hne : ls ≠ [])
    (h : ∀ l ∈ ls, '\n' ∉ l ∧ l.getLast? ≠ some '\r') : splitNl (joinNl ls) = ls := by
  induction ls with
  | nil => exact absurd rfl hne
  | cons x ls' ih =>
    cases ls' with
    | nil =>
      rw [joinNl, splitNl_no_nl x (h x (List.mem_cons_self x [])).1]
    | cons y t =>
      rw [joinNl_cons_cons, splitNl,
        splitNlAux_append_nl x (h x (List.mem_cons_self _ _)).1
          (h x (List.mem_cons_self _ _)).2]
      simp only [List.reverse_nil, List.nil_append]
      rw [show splitNlAux (joinNl (y :: t)) [] = splitNl (joinNl (y :: t)) from rfl]
      have hrec : splitNl (joinNl (y :: t)) = y :: t := by
        refine ih ?_ (fun l hl => h l (List.mem_cons_of_mem _ hl))
        intro hh
        cases hh
      rw [hrec]

lemma mem_of_mem_splitNlAux {cs acc l : List Char} {c : Char}
    (hl : l ∈ splitNlAux cs acc) (hc : c ∈ l) : c ∈ acc ∨ c ∈ cs := by
  induction cs, acc using splitNlAux.induct generalizing l with
  | case1 acc =>
    rw [splitNlAux] at hl
    rcases List.mem_cons.mp hl with rfl | hl
    · exact Or.inl (List.mem_reverse.mp hc)
    · simp at hl
  | case2 rest acc ih =>
    rw [splitNlAux_nl] at hl
    rcases List.mem_cons.mp hl with rfl | hl
    · exact Or.inl (List.mem_reverse.mp hc)
    · rcases ih hl hc with h | h
      · simp at h
      · exact Or.inr (List.mem_cons_of_mem _ h)
  | case3 rest acc ih =>
    rw [splitNlAux_crnl] at hl
    rcases List.mem_cons.mp hl with rfl | hl
    · exact Or.inl (List.mem_reverse.mp hc)
    · rcases ih hl hc with h | h
      · simp at h
      · exact Or.inr (List.mem_cons_of_mem _ (List.mem_cons_of_mem _ h))
  | case4 rest acc hcond ih =>
    rw [splitNlAux_cr rest acc (by
      intro hh
      cases rest with
      | nil => simp at hh
      | cons d r =>
        rw [List.head?_cons, Option.some.injEq] at hh
        exact hcond r (by rw [hh]))] at hl
    rcases ih hl hc with h | h
    · rcases List.mem_cons.mp h with rfl | h
      · exact Or.inr (List.mem_cons_self _ _)
      · exact Or.inl h
    · exact Or.inr (List.mem_cons_of_mem _ h)
  | case5 c' rest acc hc1 hcond hc2 ih =>
    rw [splitNlAux_other c' rest acc (fun hh => hc1 hh) (fun hh => hc2 hh)] at hl
    rcases ih hl hc with h | h
    · rcases List.mem_cons.mp h with rfl | h
      · exact Or.inr (List.mem_cons_self _ _)
      · exact Or.inl h
    · exact Or.inr (List.mem_cons_of_mem _ h)

lemma no_nl_splitNlAux (cs acc : List Char) :
    '\n' ∉ acc → ∀ l ∈ splitNlAux cs acc, '\n' ∉ l := by
  induction cs, acc using splitNlAux.induct with
  | case1 acc =>
    intro hacc l hl
    rcases List.mem_cons.mp hl with rfl | hl
    · simpa using hacc
    · simp at hl
  | case2 rest acc ih =>
    intro hacc l hl
    rw [splitNlAux_nl] at hl
    rcases List.mem_cons.mp hl with rfl | hl
    · simpa using hacc
    · exact ih (by simp) l hl
  | case3 rest acc ih =>
    intro hacc l hl
    rw [splitNlAux_crnl] at hl
    rcases List.mem_cons.mp hl with rfl | hl
    · simpa using hacc
    · exact ih (by simp) l hl
  | case4 rest acc hcond ih =>
    intro hacc l hl
    rw [splitNlAux_cr rest acc (by
      intro hh
      cases rest with
      | nil => simp at hh
      | cons d r =>
        rw [List.head?_cons, Option.some.injEq] at hh
        exact hcond r (by rw [hh]))] at hl
    refine ih ?_ l hl
    intro hm
    rcases List.mem_cons.mp hm with hm | hm
    · exact absurd hm.symm (by decide)
    · exact hacc hm
  | case5 c' rest acc hc1 hcond hc2 ih =>
    intro hacc l hl
    rw [splitNlAux_other c' rest acc (fun hh => hc1 hh) (fun hh => hc2 hh)] at hl
    refine ih ?_ l hl
    intro hm
    rcases List.mem_cons.mp hm with hm | hm
    · exact hc1 hm.symm
    · exact hacc hm

lemma no_nl_of_mem_splitNl {cs l : List Char} (hl : l ∈ splitNl cs) : '\n' ∉ l :=
  no_nl_splitNlAux cs [] (by simp) l hl

lemma mem_of_mem_splitNl {cs l : List Char} {c : Char}
    (hl : l ∈ splitNl cs) (hc : c ∈ l) : c ∈ cs := by
  rcases mem_of_mem_splitNlAux hl hc with h | h
  · simp at h
  · exact h

end SpendLite

namespace SpendLite

lemma charsLe_cons_iff (x y : Char) (xs ys : List Char) :
    charsLe (x :: xs) (y :: ys) = true ↔
      x.toNat < y.toNat ∨ (x.toNat = y.toNat ∧ charsLe xs ys = true) := by
  rw [charsLe]
  by_cases h1 : x.toNat < y.toNat
  · rw [if_pos h1]
    simp [h1]
  · rw [if_neg h1]
    by_cases h2 : y.toNat < x.toNat
    · rw [if_pos h2]
      simp only [Bool.false_eq_true, false_iff]
      rintro (h | ⟨he, _⟩)
      · exact h1 h
      · omega
    · rw [if_neg h2]
      constructor
      · intro h; exact Or.inr ⟨by omega, h⟩
      · rintro (h | ⟨he, h⟩)
        · exact absurd h h1
        · exact h

lemma charsLe_total (a b : List Char) : charsLe a b = true ∨ charsLe b a = true := by
  induction a generalizing b with
  | nil => exact Or.inl rfl
  | cons x xs ih =>
    cases b with
    | nil => exact Or.inr rfl
    | cons y ys =>
      rw [charsLe_cons_iff, charsLe_cons_iff]
      by_cases h1 : x.toNat < y.toNat
      · exact Or.inl (Or.inl h1)
      · by_cases h2 : y.toNat < x.toNat
        · exact Or.inr (Or.inl h2)
        · rcases ih ys with h | h
          · exact Or.inl (Or.inr ⟨by omega, h⟩)
          · exact Or.inr (Or.inr ⟨by omega, h⟩)

lemma charsLe_trans (a b c : List Char)
    (hab : charsLe a b = true) (hbc : charsLe b c = true) : charsLe a c = true := by
  induction a generalizing b c with
  | nil => rfl
  | cons x xs ih =>
    cases b with
    | nil => rw [charsLe] at hab; exact absurd hab (by simp)
    | cons y ys =>
      cases c with
      | nil => rw [charsLe] at hbc; exact absurd hbc (by simp)
      | cons z zs =>
        rw [charsLe_cons_iff] at hab hbc ⊢
        rcases hab with h | ⟨he, hr⟩ <;> rcases hbc with h' | ⟨he', hr'⟩
        · exact Or.inl (by omega)
        · exact Or.inl (by omega)
        · exact Or.inl (by omega)
        · exact Or.inr ⟨by omega, ih ys zs hr hr'⟩

instance : IsTotal (List Char) ruleLineLe :=
  ⟨fun a b => charsLe_total (ruleKey a) (ruleKey b)⟩

instance : IsTrans (List Char) ruleLineLe :=
  ⟨fun a b c hab hbc => charsLe_trans _ _ _ hab hbc⟩

lemma ucChar_pair : ∀ p ∈ casePairs, ucChar p.1 = p.2 := by
  intro p hp; fin_cases hp <;> decide

lemma pair_fst_lower : ∀ p ∈ casePairs, isLowerC p.1 = true := by
  intro p hp; fin_cases hp <;> decide

lemma pair_snd_upper : ∀ p ∈ casePairs, isUpperC p.2 = true := by
  intro p hp; fin_cases hp <;> decide

lemma ucChar_eq_self_of_not_lower {c : Char} (h : isLowerC c = false) : ucChar c = c := by
  refine ucChar_of_not_mem (fun p hp he => ?_)
  have h2 := pair_fst_lower p hp
  rw [he, h] at h2
  simp at h2

lemma ucChar_eq_iff {c d : Char} (hd1 : isLowerC d = false) (hd2 : isUpperC d = false) :
    ucChar c = d ↔ c = d := by
  by_cases hm : ∃ p ∈ casePairs, p.1 = c
  · obtain ⟨p, hp, rfl⟩ := hm
    rw [ucChar_pair p hp]
    constructor
    · intro h
      exact absurd (pair_snd_upper p hp) (by rw [h, hd2]; simp)
    · intro h
      exact absurd (pair_fst_lower p hp) (by rw [h, hd1]; simp)
  · push_neg at hm
    rw [ucChar_of_not_mem hm]

lemma ucChar_ucChar (c : Char) : ucChar (ucChar c) = ucChar c := by
  by_cases hm : ∃ p ∈ casePairs, p.1 = c
  · obtain ⟨p, hp, rfl⟩ := hm
    fin_cases hp <;> decide
  · push_neg at hm
    rw [ucChar_of_not_mem hm]
    exact ucChar_of_not_mem hm

lemma ucL_ucL (xs : List Char) : ucL (ucL xs) = ucL xs := by
  simp [ucL, List.map_map, Function.comp_def, ucChar_ucChar]

lemma isJsSpace_ucChar (c : Char) : isJsSpace (ucChar c) = isJsSpace c := by
  by_cases hm : ∃ p ∈ casePairs, p.1 = c
  · obtain ⟨p, hp, rfl⟩ := hm
    fin_cases hp <;> decide
  · push_neg at hm
    rw [ucChar_of_not_mem hm]

lemma arrowFree_tail (a : Char) (rest : List Char) (h : arrowFree (a :: rest) = true) :
    arrowFree rest = true := arrowFree_cons a rest h

lemma arrowFree_append_left (xs ys : List Char) (h : arrowFree (xs ++ ys) = true) :
    arrowFree xs = true := by
  induction xs with
  | nil => rfl
  | cons x xs' ih =>
    cases xs' with
    | nil => rfl
    | cons x2 t =>
      rw [List.cons_append] at h
      rw [arrowFree, Bool.and_eq_true]
      rw [show (x2 :: t) ++ ys = x2 :: (t ++ ys) from rfl] at h
      rw [arrowFree, Bool.and_eq_true] at h
      exact ⟨h.1, ih (by rw [List.cons_append]; exact h.2)⟩

lemma arrowFree_append_right (xs ys : List Char) (h : arrowFree (xs ++ ys) = true) :
    arrowFree ys = true := by
  induction xs with
  | nil => exact h
  | cons x xs' ih =>
    rw [List.cons_append] at h
    exact ih (arrowFree_cons _ _ h)

lemma arrowFree_append (xs ys : List Char) (hx : arrowFree xs = true)
    (hy : arrowFree ys = true)
    (hjoin : xs.getLast? = some '=' → ys.head? ≠ some '>') :
    arrowFree (xs ++ ys) = true := by
  induction xs with
  | nil => exact hy
  | cons x xs' ih =>
    cases xs' with
    | nil =>
      cases ys with
      | nil => rfl
      | cons y ys' =>
        rw [List.singleton_append, arrowFree, Bool.and_eq_true]
        refine ⟨?_, hy⟩
        by_contra hbad
        rw [Bool.not_eq_true, Bool.not_eq_false', Bool.and_eq_true,
          decide_eq_true_eq, decide_eq_true_eq] at hbad
        exact hjoin (by rw [hbad.1]; rfl) (by rw [hbad.2]; rfl)
    | cons x2 t =>
      rw [List.cons_append, show (x2 :: t) ++ ys = x2 :: (t ++ ys) from rfl,
        arrowFree, Bool.and_eq_true]
      rw [arrowFree, Bool.and_eq_true] at hx
      refine ⟨hx.1, ?_⟩
      rw [show x2 :: (t ++ ys) = (x2 :: t) ++ ys from rfl]
      refine ih hx.2 (fun hl => hjoin (by rwa [List.getLast?_cons_cons]))
    
lemma arrowFree_ucL (xs : List Char) (h : arrowFree xs = true) :
    arrowFree (ucL xs) = true := by
  induction xs with
  | nil => rfl
  | cons x xs' ih =>
    cases xs' with
    | nil => rfl
    | cons x2 t =>
      rw [arrowFree, Bool.and_eq_true] at h
      rw [ucL, List.map_cons, List.map_cons, arrowFree, Bool.and_eq_true]
      refine ⟨?_, ih h.2⟩
      by_contra hbad
      rw [Bool.not_eq_true, Bool.not_eq_false', Bool.and_eq_true,
        decide_eq_true_eq, decide_eq_true_eq, ucChar_eq_iff (by decide) (by decide),
        ucChar_eq_iff (by decide) (by decide)] at hbad
      rw [Bool.not_eq_true', Bool.and_eq_false_iff] at h
      rcases h.1 with hh | hh
      · exact absurd (by rw [hbad.1] : decide (x = '=') = decide ('=' = '=')) (by simp [hh])
      · exact absurd (by rw [hbad.2] : decide (x2 = '>') = decide ('>' = '>')) (by simp [hh])

lemma mem_joinArrow {parts : List (List Char)} {c : Char} (h : c ∈ joinArrow parts) :
    c = '=' ∨ c = '>' ∨ ∃ p ∈ parts, c ∈ p := by
  induction parts with
  | nil => simp [joinArrow] at h
  | cons p ps ih =>
    cases ps with
    | nil =>
      rw [joinArrow] at h
      exact Or.inr (Or.inr ⟨p, List.mem_cons_self p [], h⟩)
    | cons q qs =>
      rw [show joinArrow (p :: q :: qs) = p ++ '=' :: '>' :: joinArrow (q :: qs) from rfl] at h
      rcases List.mem_append.mp h with h | h
      · exact Or.inr (Or.inr ⟨p, List.mem_cons_self p _, h⟩)
      · rcases List.mem_cons.mp h with rfl | h
        · exact Or.inl rfl
        · rcases List.mem_cons.mp h with rfl | h
          · exact Or.inr (Or.inl rfl)
          · rcases ih h with h | h | ⟨p', hp', hc⟩
            · exact Or.inl h
            · exact Or.inr (Or.inl h)
            · exact Or.inr (Or.inr ⟨p', List.mem_cons_of_mem _ hp', hc⟩)

end SpendLite

namespace SpendLite

lemma splitArrow_first_prefix (cs p : List Char) (ps : List (List Char))
    (h : splitArrow cs = p :: ps) : ∃ rest, cs = p ++ rest := by
  induction cs using splitArrow.induct generalizing p ps with
  | case1 =>
    rw [splitArrow] at h
    injection h with h1 _
    exact ⟨[], by rw [← h1]; rfl⟩
  | case2 rest ih =>
    rw [splitArrow] at h
    injection h with h1 _
    exact ⟨'=' :: '>' :: rest, by rw [← h1]; rfl⟩
  | case3 c rest hcond hnil ih => exact absurd hnil (splitArrow_ne_nil rest)
  | case4 c rest hcond p0 ps0 hps ih =>
    have hne : ¬(c = '=' ∧ rest.head? = some '>') := by
      rintro ⟨rfl, hh⟩
      cases rest with
      | nil => simp at hh
      | cons b r =>
        rw [List.head?_cons, Option.some.injEq] at hh
        exact hcond r rfl (by rw [hh])
    rw [splitArrow_cons_of_ne c rest hne, hps] at h
    injection h with h1 h2
    obtain ⟨rest2, hrest2⟩ := ih p0 ps0 hps
    exact ⟨rest2, by rw [← h1, hrest2]; rfl⟩

lemma trimLeftC_ne_nil_of_trimC (xs : List Char) (h : trimC xs ≠ []) :
    trimLeftC xs ≠ [] := by
  intro hnil
  rw [trimC, hnil] at h
  exact h rfl

lemma trimRightC_ne_nil_of_head (ys : List Char) (c : Char)
    (hc : ys.head? = some c) (hs : isJsSpace c = false) : trimRightC ys ≠ [] := by
  intro hnil
  rw [trimRightC] at hnil
  have hdrop : ys.reverse.dropWhile isJsSpace = [] := by
    have := congrArg List.reverse hnil
    rwa [List.reverse_reverse, List.reverse_nil] at this
  rw [List.dropWhile_eq_nil_iff] at hdrop
  cases ys with
  | nil => simp at hc
  | cons a t =>
    rw [List.head?_cons, Option.some.injEq] at hc
    subst hc
    have h2 := hdrop a (by simp)
    rw [hs] at h2
    simp at h2

lemma trimC_head_of_prefix (l p0 rest : List Char) (hl : l = p0 ++ rest)
    (hp : trimC p0 ≠ []) : (trimC p0).head? = (trimC l).head? := by
  have hlp : trimLeftC p0 ≠ [] := trimLeftC_ne_nil_of_trimC p0 hp
  have h1 : (trimC p0).head? = (trimLeftC p0).head? :=
    (prefix_head?_eq ( trimRightC_prefix (trimLeftC p0)) (by rwa [trimC] at hp)).symm
  have h2 : trimLeftC l = trimLeftC p0 ++ rest := by
    rw [hl, trimLeftC, trimLeftC, List.dropWhile_append,
      if_neg (fun hemp => hlp (by rwa [List.isEmpty_iff] at hemp))]
  obtain ⟨c, hc⟩ : ∃ c, (trimLeftC p0).head? = some c := by
    cases hh : trimLeftC p0 with
    | nil => exact absurd hh hlp
    | cons a t => exact ⟨a, rfl⟩
  have hcspace : isJsSpace c = false := head?_dropWhile_false _ _ _ hc
  have h4 : (trimLeftC l).head? = some c := by
    rw [h2, List.head?_append, hc]
    rfl
  have h5 : trimRightC (trimLeftC l) ≠ [] := trimRightC_ne_nil_of_head _ c h4 hcspace
  have h6 : (trimLeftC l).head? = (trimC l).head? :=
    prefix_head?_eq ( trimRightC_prefix (trimLeftC l)) (by rwa [trimC])
  rw [h1, hc, ← h4, h6]

end SpendLite

namespace SpendLite

lemma arrowFree_trimC (xs : List Char) (h : arrowFree xs = true) :
    arrowFree (trimC xs) = true := by
  have h1 : arrowFree (trimLeftC xs) = true := by
    obtain ⟨pre, hpre⟩ := (List.dropWhile_suffix isJsSpace : trimLeftC xs <:+ xs)
    refine arrowFree_append_right pre (trimLeftC xs) ?_
    rw [show pre ++ trimLeftC xs = xs from hpre]
    exact h
  obtain ⟨post, hpost⟩ := trimRightC_prefix (trimLeftC xs)
  refine arrowFree_append_left (trimC xs) post ?_
  rw [show trimC xs ++ post = trimLeftC xs from hpost]
  exact h1

lemma ruleOfLine_eq_of_split (l p0 p1 : List Char) (ps : List (List Char))
    (hsp : splitArrow l = p0 :: p1 :: ps)
    (hc : ¬(trimC l = [] || (trimC l).head? = some '#') = true) :
    ruleOfLine l =
      if trimC p0 ≠ [] ∧ trimC (joinArrow (p1 :: ps)) ≠ []
      then some (ucL (trimC p0) ++ ' ' :: '=' :: '>' :: ' ' ::
        ucL (trimC (joinArrow (p1 :: ps))))
      else none := by
  rw [ruleOfLine, if_neg hc, hsp]

lemma ruleOfLine_inv (l r : List Char) (h : ruleOfLine l = some r) :
    ∃ p0 p1 ps, splitArrow l = p0 :: p1 :: ps ∧
      trimC l ≠ [] ∧ (trimC l).head? ≠ some '#' ∧
      trimC p0 ≠ [] ∧ trimC (joinArrow (p1 :: ps)) ≠ [] ∧
      r = ucL (trimC p0) ++ ' ' :: '=' :: '>' :: ' ' :: ucL (trimC (joinArrow (p1 :: ps))) := by
  by_cases hc : (trimC l = [] || (trimC l).head? = some '#') = true
  · rw [ruleOfLine, if_pos hc] at h
    exact Option.noConfusion h
  · have hc1 : trimC l ≠ [] := fun he => hc (by simp [he])
    have hc2 : (trimC l).head? ≠ some '#' := fun he => hc (by simp [he])
    cases hsp : splitArrow l with
    | nil => exact absurd hsp (splitArrow_ne_nil l)
    | cons p0 rest =>
      cases rest with
      | nil =>
        rw [ruleOfLine, if_neg hc, hsp] at h
        exact Option.noConfusion h
      | cons p1 ps =>
        rw [ruleOfLine_eq_of_split l p0 p1 ps hsp hc] at h
        by_cases hkc : trimC p0 ≠ [] ∧ trimC (joinArrow (p1 :: ps)) ≠ []
        · rw [if_pos hkc] at h
          injection h with h1
          exact ⟨p0, p1, ps, rfl, hc1, hc2, hkc.1, hkc.2, h1.symm⟩
        · rw [if_neg hkc] at h
          exact Option.noConfusion h

lemma comment_ruleOfLine_none (l : List Char) (h : isCommentLine l = true) :
    ruleOfLine l = none := by
  by_cases hc : (trimC l = [] || (trimC l).head? = some '#') = true
  · rw [ruleOfLine, if_pos hc]
  · rw [isCommentLine, Bool.or_eq_true] at h
    rcases h with h | h
    · exact absurd h hc
    · rw [decide_eq_true_eq] at h
      cases hsp : splitArrow l with
      | nil => exact absurd hsp (splitArrow_ne_nil l)
      | cons p0 rest =>
        cases rest with
        | nil => rw [ruleOfLine, if_neg hc, hsp]
        | cons p1 ps =>
          rw [hsp] at h
          rw [List.length_cons, List.length_cons] at h
          omega

lemma filterMap_id_of (l : List (List Char)) (f : List Char → Option (List Char))
    (h : ∀ x ∈ l, f x = some x) : l.filterMap f = l := by
  induction l with
  | nil => rfl
  | cons x t ih =>
    rw [List.filterMap_cons, h x (List.mem_cons_self x t),
      ih (fun y hy => h y (List.mem_cons_of_mem x hy))]

end SpendLite

namespace SpendLite

lemma joinArrow_splitArrow (cs : List Char) : joinArrow (splitArrow cs) = cs := by
  induction cs using splitArrow.induct with
  | case1 => rfl
  | case2 rest ih =>
    rw [splitArrow]
    cases hq : splitArrow rest with
    | nil => exact absurd hq (splitArrow_ne_nil rest)
    | cons q qs =>
      rw [show joinArrow ([] :: q :: qs) = [] ++ '=' :: '>' :: joinArrow (q :: qs) from rfl,
        List.nil_append, ← hq, ih]
  | case3 c rest hcond hnil ih => exact absurd hnil (splitArrow_ne_nil rest)
  | case4 c rest hcond p0 ps hps ih =>
    have hne : ¬(c = '=' ∧ rest.head? = some '>') := by
      rintro ⟨rfl, hh⟩
      cases rest with
      | nil => simp at hh
      | cons b r =>
        rw [List.head?_cons, Option.some.injEq] at hh
        exact hcond r rfl (by rw [hh])
    rw [splitArrow_cons_of_ne c rest hne, hps]
    cases ps with
    | nil =>
      rw [show joinArrow [c :: p0] = c :: p0 from rfl]
      have : joinArrow [p0] = rest := by rw [← hps, ih]
      rw [show joinArrow [p0] = p0 from rfl] at this
      rw [this]
    | cons s ss =>
      rw [show joinArrow ((c :: p0) :: s :: ss) = (c :: p0) ++ '=' :: '>' :: joinArrow (s :: ss)
          from rfl]
      rw [List.cons_append]
      have : joinArrow (p0 :: s :: ss) = rest := by rw [← hps, ih]
      rw [show joinArrow (p0 :: s :: ss) = p0 ++ '=' :: '>' :: joinArrow (s :: ss) from rfl] at this
      rw [this]

lemma splitArrow_arrow (t : List Char) : splitArrow ('=' :: '>' :: t) = [] :: splitArrow t := rfl

end SpendLite

namespace SpendLite

lemma ruleOfLine_spec (l r : List Char) (hnl : '\n' ∉ l) (h : ruleOfLine l = some r) :
    trimC r = r ∧ r ≠ [] ∧ r.head? ≠ some '#' ∧ '\n' ∉ r ∧
    r.getLast? ≠ some '\r' ∧ ruleOfLine r = some r ∧ isCommentLine r = false := by
  obtain ⟨p0, p1, ps, hsp, hl1, hl2, hK, hC, hr⟩ := ruleOfLine_inv l r h
  obtain ⟨k0, hk0⟩ : ∃ k0, (trimC p0).head? = some k0 := by
    cases hh : trimC p0 with
    | nil => exact absurd hh hK
    | cons a t => exact ⟨a, rfl⟩
  obtain ⟨k1, hk1⟩ : ∃ k1, (trimC p0).getLast? = some k1 := by
    cases hh : (trimC p0).getLast? with
    | none => exact absurd ((List.getLast?_eq_none_iff).mp hh) hK
    | some a => exact ⟨a, rfl⟩
  obtain ⟨c0, hc0⟩ : ∃ c0, (trimC (joinArrow (p1 :: ps))).head? = some c0 := by
    cases hh : trimC (joinArrow (p1 :: ps)) with
    | nil => exact absurd hh hC
    | cons a t => exact ⟨a, rfl⟩
  obtain ⟨c1, hc1⟩ : ∃ c1, (trimC (joinArrow (p1 :: ps))).getLast? = some c1 := by
    cases hh : (trimC (joinArrow (p1 :: ps))).getLast? with
    | none => exact absurd ((List.getLast?_eq_none_iff).mp hh) hC
    | some a => exact ⟨a, rfl⟩
  have hk0s := trimC_head_false p0 k0 hk0
  have hk1s := trimC_getLast_false p0 k1 hk1
  have hc0s := trimC_head_false (joinArrow (p1 :: ps)) c0 hc0
  have hc1s := trimC_getLast_false (joinArrow (p1 :: ps)) c1 hc1
  have hUKhead : (ucL (trimC p0)).head? = some (ucChar k0) := by
    rw [ucL, List.head?_map _ _, hk0]; rfl
  have hUKlast : (ucL (trimC p0)).getLast? = some (ucChar k1) := by
    rw [ucL, List.getLast?_map _ _, hk1]; rfl
  have hUChead : (ucL (trimC (joinArrow (p1 :: ps)))).head? = some (ucChar c0) := by
    rw [ucL, List.head?_map _ _, hc0]; rfl
  have hUClast : (ucL (trimC (joinArrow (p1 :: ps)))).getLast? = some (ucChar c1) := by
    rw [ucL, List.getLast?_map _ _, hc1]; rfl
  have hUKne : ucL (trimC p0) ≠ [] := by
    rw [ucL]; intro hh; rw [List.map_eq_nil_iff] at hh; exact hK hh
  have hUCne : ucL (trimC (joinArrow (p1 :: ps))) ≠ [] := by
    rw [ucL]; intro hh; rw [List.map_eq_nil_iff] at hh; exact hC hh
  have hrhead : r.head? = some (ucChar k0) := by
    rw [hr, List.head?_append, hUKhead]; rfl
  have hrlast : r.getLast? = some (ucChar c1) := by
    rw [hr,
      show (' ' :: '=' :: '>' :: ' ' :: ucL (trimC (joinArrow (p1 :: ps))))
        = ([' ', '=', '>', ' '] ++ ucL (trimC (joinArrow (p1 :: ps)))) from rfl,
      List.getLast?_append, List.getLast?_append, hUClast]
    rfl
  have hrne : r ≠ [] := by
    rw [hr]; intro hh; exact hUKne (List.append_eq_nil.mp hh).1
  have hP1 : trimC r = r := by
    refine trimC_eq_self r (fun c hcc => ?_) (fun c hcc => ?_)
    · rw [hrhead, Option.some.injEq] at hcc; subst hcc
      rw [isJsSpace_ucChar]; exact hk0s
    · rw [hrlast, Option.some.injEq] at hcc; subst hcc
      rw [isJsSpace_ucChar]; exact hc1s
  obtain ⟨rest0, hrest0⟩ := splitArrow_first_prefix l p0 (p1 :: ps) hsp
  have hheadlink : (trimC p0).head? = (trimC l).head? :=
    trimC_head_of_prefix l p0 rest0 hrest0 hK
  have hk0hash : k0 ≠ '#' := by
    intro hh; subst hh
    exact hl2 (by rw [← hheadlink, hk0])
  have hP3 : r.head? ≠ some '#' := by
    rw [hrhead]
    intro hh
    rw [Option.some.injEq] at hh
    exact hk0hash ((ucChar_eq_iff (by decide) (by decide)).mp hh)
  have hnlK : '\n' ∉ ucL (trimC p0) := by
    intro hm
    rw [ucL] at hm
    obtain ⟨x, hx, hux⟩ := List.mem_map.mp hm
    have hx' : x = '\n' := (ucChar_eq_iff (by decide) (by decide)).mp hux
    subst hx'
    exact hnl (mem_of_mem_splitArrow (hsp ▸ List.mem_cons_self p0 _) (mem_of_mem_trimC hx))
  have hnlC : '\n' ∉ ucL (trimC (joinArrow (p1 :: ps))) := by
    intro hm
    rw [ucL] at hm
    obtain ⟨x, hx, hux⟩ := List.mem_map.mp hm
    have hx' : x = '\n' := (ucChar_eq_iff (by decide) (by decide)).mp hux
    subst hx'
    rcases mem_joinArrow (mem_of_mem_trimC hx) with hh | hh | ⟨p, hp, hcp⟩
    · exact absurd hh (by decide)
    · exact absurd hh (by decide)
    · exact hnl (mem_of_mem_splitArrow (hsp ▸ List.mem_cons_of_mem p0 hp) hcp)
  have hP4 : '\n' ∉ r := by
    rw [hr]
    intro hm
    rcases List.mem_append.mp hm with hm | hm
    · exact hnlK hm
    · rcases List.mem_cons.mp hm with hh | hm
      · exact absurd hh (by decide)
      · rcases List.mem_cons.mp hm with hh | hm
        · exact absurd hh (by decide)
        · rcases List.mem_cons.mp hm with hh | hm
          · exact absurd hh (by decide)
          · rcases List.mem_cons.mp hm with hh | hm
            · exact absurd hh (by decide)
            · exact hnlC hm
  have hP5 : r.getLast? ≠ some '\r' := by
    rw [hrlast]
    intro hh
    rw [Option.some.injEq] at hh
    have hsp5 : isJsSpace (ucChar c1) = false := by rw [isJsSpace_ucChar]; exact hc1s
    rw [hh] at hsp5
    exact absurd hsp5 (by decide)
  have hUKtrim : trimC (ucL (trimC p0)) = ucL (trimC p0) := by
    refine trimC_eq_self _ (fun c hcc => ?_) (fun c hcc => ?_)
    · rw [hUKhead, Option.some.injEq] at hcc; subst hcc
      rw [isJsSpace_ucChar]; exact hk0s
    · rw [hUKlast, Option.some.injEq] at hcc; subst hcc
      rw [isJsSpace_ucChar]; exact hk1s
  have hUCtrim : trimC (ucL (trimC (joinArrow (p1 :: ps))))
      = ucL (trimC (joinArrow (p1 :: ps))) := by
    refine trimC_eq_self _ (fun c hcc => ?_) (fun c hcc => ?_)
    · rw [hUChead, Option.some.injEq] at hcc; subst hcc
      rw [isJsSpace_ucChar]; exact hc0s
    · rw [hUClast, Option.some.injEq] at hcc; subst hcc
      rw [isJsSpace_ucChar]; exact hc1s
  have hKfree : arrowFree (ucL (trimC p0)) = true :=
    arrowFree_ucL _ (arrowFree_trimC _
      (arrowFree_of_parts l p0 (hsp ▸ List.mem_cons_self p0 _)))
  obtain ⟨q, qs, hq⟩ :
      ∃ q qs, splitArrow (' ' :: ucL (trimC (joinArrow (p1 :: ps)))) = q :: qs := by
    cases hh : splitArrow (' ' :: ucL (trimC (joinArrow (p1 :: ps)))) with
    | nil => exact absurd hh (splitArrow_ne_nil _)
    | cons q qs => exact ⟨q, qs, rfl⟩
  have hsplitr : splitArrow r = (ucL (trimC p0) ++ [' ']) :: q :: qs := by
    have hregroup : r = (ucL (trimC p0) ++ [' '])
        ++ ('=' :: '>' :: (' ' :: ucL (trimC (joinArrow (p1 :: ps))))) := by
      rw [hr]; simp
    rw [hregroup]
    have hafk : arrowFree (ucL (trimC p0) ++ [' ']) = true := by
      refine arrowFree_append _ _ hKfree rfl (fun _ => by decide)
    have hlk : (ucL (trimC p0) ++ [' ']).getLast? ≠ some '=' := by
      rw [List.getLast?_concat]; decide
    have := splitArrow_append (ucL (trimC p0) ++ [' '])
      ('=' :: '>' :: (' ' :: ucL (trimC (joinArrow (p1 :: ps))))) hafk hlk
      [] (q :: qs) (by rw [splitArrow_arrow, hq])
    rw [this, List.append_nil]
  have hjoinq : joinArrow (q :: qs) = ' ' :: ucL (trimC (joinArrow (p1 :: ps))) := by
    rw [← hq, joinArrow_splitArrow]
  have hkw : trimC (ucL (trimC p0) ++ [' ']) = ucL (trimC p0) := by
    rw [trimC_append_space _ _ (by decide), hUKtrim]
  have hcat : trimC (joinArrow (q :: qs)) = ucL (trimC (joinArrow (p1 :: ps))) := by
    rw [hjoinq, trimC_cons_space _ _ (by decide), hUCtrim]
  have hP6 : ruleOfLine r = some r := by
    have hcond : ¬(trimC r = [] || (trimC r).head? = some '#') = true := by
      rw [hP1]
      simp [hrne, hP3]
    rw [ruleOfLine_eq_of_split r (ucL (trimC p0) ++ [' ']) q qs hsplitr hcond,
      if_pos ⟨by rw [hkw]; exact hUKne, by rw [hcat]; exact hUCne⟩, hkw, hcat,
      ucL_ucL, ucL_ucL, ← hr]
  have hP7 : isCommentLine r = false := by
    rw [isCommentLine, hsplitr, hP1]
    simp only [Bool.or_eq_false_iff, decide_eq_false_iff_not]
    refine ⟨⟨hrne, hP3⟩, ?_⟩
    rw [List.length_cons, List.length_cons]
    omega
  exact ⟨hP1, hrne, hP3, hP4, hP5, hP6, hP7⟩

end SpendLite

namespace SpendLite

lemma canonLines_def (ls : List (List Char)) :
    canonLines ls = ls.filter isCommentLine
      ++ (if ls.filter isCommentLine ≠ []
            ∧ List.insertionSort ruleLineLe (ls.filterMap ruleOfLine) ≠ []
          then [[]] else [])
      ++ List.insertionSort ruleLineLe (ls.filterMap ruleOfLine) := rfl

lemma parseRuleLine_eq_of_split (l p0 p1 : List Char) (ps : List (List Char))
    (hsp : splitArrow (trimC l) = p0 :: p1 :: ps)
    (hc : ¬(trimC l = [] || (trimC l).head? = some '#') = true) :
    parseRuleLine l =
      if lcL (trimC p0) ≠ [] ∧ ucL (trimC p1) ≠ []
      then some ⟨⟨lcL (trimC p0)⟩, ⟨ucL (trimC p1)⟩⟩ else none := by
  rw [parseRuleLine, if_neg hc, hsp]

/-- C1 (counterexample): canonicalization is not idempotent.  When the text
has both a comment block and a rule block, `sortRulesBox` joins them with a
blank line, and that blank line is itself kept as a comment line on the next
pass, so every further pass inserts one more blank separator. -/
theorem C1_not_idempotent :
    canonicalize (canonicalize "# a\nB => C") ≠ canonicalize "# a\nB => C" := by
  decide

/-- C1 (amended): canonicalization is idempotent on every rule text (free of
carriage returns) whose comment block or whose rule block is empty — the
accumulating blank separator between a non-empty comment block and a
non-empty rule block is the only failure of idempotence. -/
theorem C1_canonicalize_idempotent_amended (s : String)
    (hcr : '\r' ∉ s.data)
    (hor : canonComments s = [] ∨ canonRules s = []) :
    canonicalize (canonicalize s) = canonicalize s := by
  rcases hor with hcom | hrul
  · have hcom' : (splitNl s.data).filter isCommentLine = [] := hcom
    have h1 : canonicalize s
        = ⟨joinNl (List.insertionSort ruleLineLe ((splitNl s.data).filterMap ruleOfLine))⟩ := by
      rw [canonicalize, canonLines_def, hcom']
      simp
    by_cases hrules : (splitNl s.data).filterMap ruleOfLine = []
    · rw [h1, hrules]
      decide
    · have hperm := List.perm_insertionSort ruleLineLe ((splitNl s.data).filterMap ruleOfLine)
      have hsne : List.insertionSort ruleLineLe ((splitNl s.data).filterMap ruleOfLine) ≠ [] := by
        intro hh
        apply hrules
        have hlen := hperm.length_eq
        rw [hh] at hlen
        exact List.length_eq_zero.mp hlen.symm
      have hspecs : ∀ r ∈ List.insertionSort ruleLineLe ((splitNl s.data).filterMap ruleOfLine),
          trimC r = r ∧ r ≠ [] ∧ r.head? ≠ some '#' ∧ '\n' ∉ r ∧
          r.getLast? ≠ some '\r' ∧ ruleOfLine r = some r ∧ isCommentLine r = false := by
        intro r hrr
        obtain ⟨l, hl, hrl⟩ := List.mem_filterMap.mp (hperm.mem_iff.mp hrr)
        exact ruleOfLine_spec l r (no_nl_of_mem_splitNl hl) hrl
      have hsplit2 : splitNl (joinNl (List.insertionSort ruleLineLe
            ((splitNl s.data).filterMap ruleOfLine)))
          = List.insertionSort ruleLineLe ((splitNl s.data).filterMap ruleOfLine) :=
        splitNl_joinNl _ hsne (fun r hrr =>
          ⟨(hspecs r hrr).2.2.2.1, (hspecs r hrr).2.2.2.2.1⟩)
      have e : canonicalize ⟨joinNl (List.insertionSort ruleLineLe
            ((splitNl s.data).filterMap ruleOfLine))⟩
          = ⟨joinNl (canonLines (splitNl (joinNl (List.insertionSort ruleLineLe
              ((splitNl s.data).filterMap ruleOfLine)))))⟩ := rfl
      rw [h1, e, hsplit2, canonLines_def]
      have hcom2 : (List.insertionSort ruleLineLe
            ((splitNl s.data).filterMap ruleOfLine)).filter isCommentLine = [] :=
        List.filter_eq_nil_iff.mpr (fun r hrr => by rw [(hspecs r hrr).2.2.2.2.2.2]; simp)
      have hrules2 : (List.insertionSort ruleLineLe
            ((splitNl s.data).filterMap ruleOfLine)).filterMap ruleOfLine
          = List.insertionSort ruleLineLe ((splitNl s.data).filterMap ruleOfLine) :=
        filterMap_id_of _ _ (fun r hrr => (hspecs r hrr).2.2.2.2.2.1)
      rw [hcom2, hrules2,
        List.Sorted.insertionSort_eq (List.sorted_insertionSort ruleLineLe _)]
      simp
  · have hrul' : (splitNl s.data).filterMap ruleOfLine = [] := hrul
    have h0 : List.insertionSort ruleLineLe ((splitNl s.data).filterMap ruleOfLine) = [] := by
      rw [hrul']
      rfl
    have h1 : canonicalize s = ⟨joinNl ((splitNl s.data).filter isCommentLine)⟩ := by
      rw [canonicalize, canonLines_def, h0]
      simp
    by_cases hcom : (splitNl s.data).filter isCommentLine = []
    · rw [h1, hcom]
      decide
    · have hcmem : ∀ l ∈ (splitNl s.data).filter isCommentLine,
          l ∈ splitNl s.data ∧ isCommentLine l = true :=
        fun l hl => ⟨(List.mem_filter.mp hl).1, (List.mem_filter.mp hl).2⟩
      have hsplit2 : splitNl (joinNl ((splitNl s.data).filter isCommentLine))
          = (splitNl s.data).filter isCommentLine := by
        refine splitNl_joinNl _ hcom (fun l hl =>
          ⟨no_nl_of_mem_splitNl (hcmem l hl).1, ?_⟩)
        intro hlast
        exact hcr (mem_of_mem_splitNl (hcmem l hl).1 (List.mem_of_mem_getLast? hlast))
      have e : canonicalize ⟨joinNl ((splitNl s.data).filter isCommentLine)⟩
          = ⟨joinNl (canonLines (splitNl (joinNl
              ((splitNl s.data).filter isCommentLine))))⟩ := rfl
      rw [h1, e, hsplit2, canonLines_def]
      have hfilter : ((splitNl s.data).filter isCommentLine).filter isCommentLine
          = (splitNl s.data).filter isCommentLine :=
        List.filter_eq_self.mpr (fun l hl => (hcmem l hl).2)
      have hfm : ((splitNl s.data).filter isCommentLine).filterMap ruleOfLine = [] :=
        List.filterMap_eq_nil_iff.mpr (fun l hl => comment_ruleOfLine_none l (hcmem l hl).2)
      rw [hfilter, hfm]
      simp

/-- C1, witness: the amended idempotence at a concrete rules-only text. -/
theorem C1_witness :
    canonicalize (canonicalize "B => C\nA => X") = canonicalize "B => C\nA => X" :=
  C1_canonicalize_idempotent_amended "B => C\nA => X" (by decide) (Or.inl (by decide))

/-- C2 (counterexample): `parseRules` does not re-join the parts after the
first separator — on `k => A => B` the category is `A`, not `A => B`.  (The
re-join `parts.slice(1).join` exists in `sortRulesBox`, not in
`parseRules`, which reads `parts[1]` only.) -/
theorem C2_category_not_rejoined :
    parseRules "k => A => B" = [⟨"k", "A"⟩] ∧
    parseRules "k => A => B" ≠ [⟨"k", "A => B"⟩] := by
  decide

/-- C2 (amended): on a single line `K => A => REST` (keyword, middle part and
remainder trimmed, non-empty, newline-free; keyword and middle part free of
the separator; keyword not starting with `#`), `parseRules` produces exactly
one rule: the lowercased keyword with the uppercased FIRST part `A` as
category; everything after the second separator is ignored. -/
theorem C2_parseRules_category_first_part (k a rest : String)
    (hkt : trimC k.data = k.data) (hkne : k.data ≠ [])
    (hkf : arrowFree k.data = true) (hkh : k.data.head? ≠ some '#')
    (hknl : '\n' ∉ k.data)
    (hat : trimC a.data = a.data) (hane : a.data ≠ [])
    (haf : arrowFree a.data = true) (hanl : '\n' ∉ a.data)
    (hrt : trimC rest.data = rest.data) (hrne : rest.data ≠ [])
    (hrnl : '\n' ∉ rest.data) :
    parseRules (k ++ " => " ++ a ++ " => " ++ rest) = [⟨⟨lcL k.data⟩, ⟨ucL a.data⟩⟩] := by
  have harrow : (" => " : String).data = ' ' :: '=' :: '>' :: [' '] := rfl
  have hdata : (k ++ " => " ++ a ++ " => " ++ rest).data
      = k.data ++ ' ' :: '=' :: '>' :: ' ' ::
          (a.data ++ ' ' :: '=' :: '>' :: ' ' :: rest.data) := by
    simp [String.data_append, harrow]
  set L : List Char := k.data ++ ' ' :: '=' :: '>' :: ' ' ::
      (a.data ++ ' ' :: '=' :: '>' :: ' ' :: rest.data) with hL
  have hLnl : '\n' ∉ L := by
    intro h
    rw [hL] at h
    simp at h
    rcases h with h | h | h
    · exact hknl h
    · exact hanl h
    · exact hrnl h
  have hstep : L.getLast? = rest.data.getLast? := by
    rw [hL]
    rw [List.getLast?_append_of_ne_nil k.data
      (show (' ' :: '=' :: '>' :: ' ' :: (a.data ++ ' ' :: '=' :: '>' :: ' ' :: rest.data))
        ≠ [] by simp)]
    rw [show (' ' :: '=' :: '>' :: ' ' :: (a.data ++ ' ' :: '=' :: '>' :: ' ' :: rest.data))
        = ([' ', '=', '>', ' '] ++ (a.data ++ (' ' :: '=' :: '>' :: ' ' :: rest.data)))
        from rfl]
    rw [List.getLast?_append_of_ne_nil ([' ', '=', '>', ' '] : List Char)
      (show a.data ++ (' ' :: '=' :: '>' :: ' ' :: rest.data) ≠ [] by simp)]
    rw [List.getLast?_append_of_ne_nil a.data
      (show (' ' :: '=' :: '>' :: ' ' :: rest.data) ≠ [] by simp)]
    rw [show (' ' :: '=' :: '>' :: ' ' :: rest.data)
        = ([' ', '=', '>', ' '] ++ rest.data) from rfl]
    rw [List.getLast?_append_of_ne_nil ([' ', '=', '>', ' '] : List Char) hrne]
  have hTrim : trimC L = L := by
    refine trimC_eq_self L (fun c hcc => ?_) (fun c hcc => ?_)
    · cases hk : k.data with
      | nil => exact absurd hk hkne
      | cons x t =>
        rw [hL, hk, List.cons_append, List.head?_cons, Option.some.injEq] at hcc
        refine trimC_head_false k.data c ?_
        rw [hkt, hk, List.head?_cons, hcc]
    · refine trimC_getLast_false rest.data c ?_
      rw [hrt, ← hstep]
      exact hcc
  have hcnot : ¬(trimC L = [] || (trimC L).head? = some '#') = true := by
    rw [hTrim]
    intro hcontra
    rw [Bool.or_eq_true] at hcontra
    rcases hcontra with h | h
    · rw [decide_eq_true_eq] at h
      cases hk : k.data with
      | nil => exact hkne hk
      | cons x t => rw [hL, hk] at h; simp at h
    · rw [decide_eq_true_eq] at h
      cases hk : k.data with
      | nil => exact hkne hk
      | cons x t =>
        rw [hL, hk, List.cons_append, List.head?_cons] at h
        apply hkh
        rw [hk, List.head?_cons]
        exact h
  have hre : L = (k.data ++ [' ']) ++ '=' :: '>' ::
      ((' ' :: a.data ++ [' ']) ++ '=' :: '>' :: (' ' :: rest.data)) := by
    rw [hL]; simp
  have hafsp : arrowFree ([' '] : List Char) = true := by decide
  have hafk : arrowFree (k.data ++ [' ']) = true :=
    arrowFree_append k.data [' '] hkf hafsp (fun _ => by decide)
  have hafa1 : arrowFree (' ' :: a.data) = true := by
    refine arrowFree_append [' '] a.data hafsp haf (fun hcontra => ?_)
    simp at hcontra
  have hafa : arrowFree (' ' :: a.data ++ [' ']) = true := by
    refine arrowFree_append (' ' :: a.data) [' '] hafa1 hafsp (fun _ => by decide)
  have hlastk : (k.data ++ [' ']).getLast? ≠ some '=' := by
    rw [List.getLast?_concat]; simp
  have hlasta : (' ' :: a.data ++ [' ']).getLast? ≠ some '=' := by
    rw [show (' ' :: a.data ++ [' '] : List Char) = (' ' :: a.data) ++ [' '] from rfl,
      List.getLast?_concat]
    simp
  have hs1 : splitArrow ('=' :: '>' :: (' ' :: rest.data))
      = [] :: splitArrow (' ' :: rest.data) := splitArrow_arrow _
  have hs2 : splitArrow ((' ' :: a.data ++ [' ']) ++ '=' :: '>' :: (' ' :: rest.data))
      = (' ' :: a.data ++ [' ']) :: splitArrow (' ' :: rest.data) := by
    have := splitArrow_append (' ' :: a.data ++ [' ']) ('=' :: '>' :: (' ' :: rest.data))
      hafa hlasta [] (splitArrow (' ' :: rest.data)) hs1
    simpa using this
  have hs3 : splitArrow ('=' :: '>' ::
        ((' ' :: a.data ++ [' ']) ++ '=' :: '>' :: (' ' :: rest.data)))
      = [] :: (' ' :: a.data ++ [' ']) :: splitArrow (' ' :: rest.data) := by
    rw [splitArrow_arrow, hs2]
  have hsL : splitArrow L
      = (k.data ++ [' ']) :: (' ' :: a.data ++ [' ']) :: splitArrow (' ' :: rest.data) := by
    rw [hre]
    have := splitArrow_append (k.data ++ [' '])
      ('=' :: '>' :: ((' ' :: a.data ++ [' ']) ++ '=' :: '>' :: (' ' :: rest.data)))
      hafk hlastk []
      ((' ' :: a.data ++ [' ']) :: splitArrow (' ' :: rest.data)) hs3
    simpa using this
  have hsplitTrim : splitArrow (trimC L)
      = (k.data ++ [' ']) :: (' ' :: a.data ++ [' ']) :: splitArrow (' ' :: rest.data) := by
    rw [hTrim, hsL]
  have hp0 : trimC (k.data ++ [' ']) = k.data := by
    rw [trimC_append_space k.data ' ' (by decide), hkt]
  have hp1 : trimC (' ' :: a.data ++ [' ']) = a.data := by
    rw [show (' ' :: a.data ++ [' '] : List Char) = ' ' :: (a.data ++ [' ']) from rfl,
      trimC_cons_space _ ' ' (by decide), trimC_append_space a.data ' ' (by decide), hat]
  have hsome : parseRuleLine L = some ⟨⟨lcL k.data⟩, ⟨ucL a.data⟩⟩ := by
    rw [parseRuleLine_eq_of_split L (k.data ++ [' ']) (' ' :: a.data ++ [' '])
      (splitArrow (' ' :: rest.data)) hsplitTrim hcnot, hp0, hp1]
    rw [if_pos]
    constructor
    · rw [lcL, Ne, List.map_eq_nil_iff]
      exact hkne
    · rw [ucL, Ne, List.map_eq_nil_iff]
      exact hane
  rw [parseRules, hdata, splitNl_no_nl L hLnl, List.filterMap_cons, hsome]
  rfl

/-- C2, witness: the amended statement at the concrete line `k => A => B`. -/
theorem C2_witness :
    parseRules ("k" ++ " => " ++ "A" ++ " => " ++ "B")
      = [⟨⟨lcL ("k" : String).data⟩, ⟨ucL ("A" : String).data⟩⟩] :=
  C2_parseRules_category_first_part "k" "A" "B" (by decide) (by decide) (by decide)
    (by decide) (by decide) (by decide) (by decide) (by decide) (by decide) (by decide)
    (by decide) (by decide)

/-- C3 (counterexample): canonicalization can discard user data.  The line
`x =>` is non-blank and not a `#` comment, yet `sortRulesBox` drops it
entirely (it contains the separator, so it is not kept as a comment, and its
category part trims to empty, so no rule line is emitted for it). -/
theorem C3_discards_empty_category_line :
    canonicalize "x =>\nA => B" = "A => B" ∧
    trimC ("x =>" : String).data ≠ [] ∧
    (trimC ("x =>" : String).data).head? ≠ some '#' := by
  decide

/-- C3 (amended): canonicalization keeps every comment-classified input line
(blank, `#`-starting, or separator-free) verbatim, and re-emits the
normalized form of every line that yields a rule line; only
separator-containing lines whose keyword or category part trims to empty
are discarded. -/
theorem C3_canonicalize_keeps_classified_lines (ls : List (List Char)) (l : List Char)
    (hmem : l ∈ ls) :
    (isCommentLine l = true → l ∈ canonLines ls) ∧
    (∀ r, ruleOfLine l = some r → r ∈ canonLines ls) := by
  rw [canonLines_def]
  constructor
  · intro hc
    exact List.mem_append.mpr (Or.inl (List.mem_append.mpr
      (Or.inl (List.mem_filter.mpr ⟨hmem, hc⟩))))
  · intro r hr
    refine List.mem_append.mpr (Or.inr ?_)
    exact (List.perm_insertionSort ruleLineLe _).mem_iff.mpr
      (List.mem_filterMap.mpr ⟨l, hmem, hr⟩)

/-- C3, witness: the normalized form of `A => B` is in the canonical output
of the one-line text `A => B`. -/
theorem C3_witness :
    ("A => B" : String).data ∈ canonLines (splitNl ("A => B" : String).data) :=
  (C3_canonicalize_keeps_classified_lines (splitNl ("A => B" : String).data)
    (("A => B" : String).data) (by decide)).2 (("A => B" : String).data) (by decide)

end SpendLite
